import Mathlib

/-
Verification of the CodeSystem Import Engine.

The engine ingests a batch of concepts and concept-level properties into a
relational store holding three tables: Coding, CodeSystem_Property and
Coding_Property.  The definitions below are a shallow embedding of that
ingestion path: the orchestrator importCodeSystem, the concept writer, the
property writer processProperties, the property resolver resolveProperty
and the per-call resolution cache.  Machine state is a Database record of
the three tables plus the server id sequence; fallible steps return
Except String carrying the diagnostic text of the structured outcome that
the source throws.

Parts of the repository that the import path calls into but that are not
part of the engine source (the SQL fragment builder with its
mergeOnConflict, ignoreOnConflict and returnColumn policies, and the
database layer providing the single pooled connection under one
transaction) are modelled from the spec; each such definition says so in
its doc comment.
-/

namespace CSImport

/-- A property definition as declared on a CodeSystem resource:
code, uri, type and an optional description.  The value of type equal to
the string "code" marks a relationship property. -/
structure PropertyDef where
  code : String
  uri : Option String
  type : String
  description : Option String
deriving DecidableEq

/-- The slice of a FHIR CodeSystem resource that the import engine reads:
its internal id, canonical url, optional hierarchyMeaning and the declared
list of property definitions. -/
structure CodeSystem where
  id : Nat
  url : String
  hierarchyMeaning : Option String
  property : Option (List PropertyDef)
deriving DecidableEq

/-- An incoming concept of the batch: a FHIR Coding with a code and an
optional display. -/
structure Concept where
  code : String
  display : Option String
deriving DecidableEq

/-- The transient batch payload for one concept property:
code names the owning concept, property names the property definition and
value is the textual value. -/
structure ImportedProperty where
  code : String
  property : String
  value : String
deriving DecidableEq

/-- A row of the Coding table. -/
structure CodingRow where
  id : Nat
  system : Nat
  code : String
  display : Option String
deriving DecidableEq

/-- A row of the CodeSystem_Property table. -/
structure CodeSystemPropertyRow where
  id : Nat
  system : Nat
  code : String
  type : String
  uri : Option String
  description : Option String
deriving DecidableEq

/-- A row of the Coding_Property table. -/
structure CodingPropertyRow where
  coding : Nat
  property : Nat
  value : String
  target : Option Nat
deriving DecidableEq

/-- The relational store touched by the engine: the three tables plus
nextId, which models the server-assigned id sequence used for freshly
inserted Coding and CodeSystem_Property rows. -/
structure Database where
  codings : List CodingRow
  csProps : List CodeSystemPropertyRow
  codingProps : List CodingPropertyRow
  nextId : Nat
deriving DecidableEq

/-- One memoized property resolution: the id of the definition row and the
relationship flag. -/
structure CacheEntry where
  id : Nat
  isRelationship : Bool
deriving DecidableEq

/-- Modelled from the spec: the per-call resolution cache.  The source
keeps a prototype-less dictionary keyed by strings of the shape
system-url, a bar, property-code; a prototype-less dictionary is exactly a
finite map on plain strings, so the model is an association list with
ordinary string keys and no special keys of any kind. -/
abbrev Cache := List (String × CacheEntry)

/-- Modelled from the spec: the single database connection.  All SQL of
one orchestrator call runs on one connection under one transaction, so the
observable store is the committed state while the statements of the open
transaction read and write the pending state. -/
structure Session where
  committed : Database
  pending : Database
deriving DecidableEq

/-- The uri synthesized for implicit parent properties. -/
def parentProperty : String := "http://hl7.org/fhir/concept-properties#parent"

/-- SELECT id FROM Coding WHERE system = sys AND code = x, first row. -/
def findCoding (l : List CodingRow) (sys : Nat) (x : String) : Option CodingRow :=
  l.find? fun r => r.system == sys && r.code == x

/-- The id column of the first matching Coding row, when one exists. -/
def lookupCodingId (l : List CodingRow) (sys : Nat) (x : String) : Option Nat :=
  (findCoding l sys x).map (fun r => r.id)

/-- Whether some Coding row for the pair of system and code exists. -/
def containsCoding (l : List CodingRow) (sys : Nat) (x : String) : Bool :=
  l.any fun r => r.system == sys && r.code == x

/-- SELECT FROM CodeSystem_Property WHERE system = sys AND code = x, first
row. -/
def findCsProp (l : List CodeSystemPropertyRow) (sys : Nat) (x : String) :
    Option CodeSystemPropertyRow :=
  l.find? fun r => r.system == sys && r.code == x

/-- The update half of the Coding upsert: set the display of the row
matching the conflict key, leave every other row alone. -/
def mergeRow (cs : CodeSystem) (c : Concept) (r : CodingRow) : CodingRow :=
  if r.system == cs.id && r.code == c.code then { r with display := c.display } else r

/-- Modelled from the spec: mergeOnConflict on the key columns system and
code, as used by the concept writer.  Insert the row; if a row already
exists matching the key columns, update the non-key column display to the
new value.  Under the uniqueness invariant on the pair of system and code
the conflicting row is unique; the model updates every matching row. -/
def upsertCoding (cs : CodeSystem) (c : Concept) (d : Database) : Database :=
  if containsCoding d.codings cs.id c.code then
    { d with codings := d.codings.map (mergeRow cs c) }
  else
    { d with
      codings := d.codings ++ [⟨d.nextId, cs.id, c.code, c.display⟩],
      nextId := d.nextId + 1 }

/-- The concept writer loop of importCodeSystem: upsert each incoming
concept in input order. -/
def applyConcepts (cs : CodeSystem) : List Concept → Database → Database
  | [], d => d
  | c :: rest, d => applyConcepts cs rest (upsertCoding cs c d)

/-- The pure half of the resolver: search the declared property list, then
apply the implicit parent rules, otherwise fail with the Unknown property
diagnostic.  The truthiness test on hierarchyMeaning in the source treats
both an absent and an empty string value as unset. -/
def resolvePure (cs : CodeSystem) (code : String) : Except String PropertyDef :=
  match (cs.property.getD []).find? (fun p => p.code == code) with
  | some p => .ok p
  | none =>
    if cs.hierarchyMeaning == some code ||
        (code == "parent" && cs.hierarchyMeaning.getD "" == "") then
      .ok { code := code, uri := some parentProperty, type := "code", description := none }
    else
      .error ("Unknown property: " ++ code)

/-- The resolver resolveProperty: determine the property definition (or
fail), classify it as a relationship when its type is the string "code",
then return the id of the existing CodeSystem_Property row for the pair of
system and code, or insert a new row and return the generated id
(returnColumn id, modelled from the spec as handing back nextId). -/
def resolveProperty (cs : CodeSystem) (code : String) (d : Database) :
    Except String (Nat × Bool × Database) :=
  match resolvePure cs code with
  | .error e => .error e
  | .ok prop =>
    let isRel := prop.type == "code"
    match findCsProp d.csProps cs.id code with
    | some known => .ok (known.id, isRel, d)
    | none =>
      .ok (d.nextId, isRel,
        { d with
          csProps := d.csProps ++
            [⟨d.nextId, cs.id, code, prop.type, prop.uri, prop.description⟩],
          nextId := d.nextId + 1 })

/-- Lookup in the resolution cache: the first entry with the given key. -/
def cacheLookup (c : Cache) (k : String) : Option CacheEntry :=
  (c.find? fun kv => kv.1 == k).map (fun kv => kv.2)

/-- Assignment into the resolution cache: replace the value stored at the
key when present, append otherwise. -/
def cacheInsert : Cache → String → CacheEntry → Cache
  | [], k, e => [(k, e)]
  | kv :: rest, k, e =>
    if kv.1 == k then (k, e) :: rest else kv :: cacheInsert rest k e

/-- The cache-miss path of the property writer: invoke the resolver and
store the result in the cache under the given key. -/
def resolveMiss (cs : CodeSystem) (d : Database) (c : Cache) (code key : String) :
    Except String (Nat × Bool × Database × Cache) :=
  match resolveProperty cs code d with
  | .error e => .error e
  | .ok (i, r, d1) => .ok (i, r, d1, cacheInsert c key ⟨i, r⟩)

/-- The cache consultation of the property writer.  A hit whose stored id
is zero is falsy in the source and re-resolves, exactly like a miss. -/
def resolveCached (cs : CodeSystem) (d : Database) (c : Cache) (code : String) :
    Except String (Nat × Bool × Database × Cache) :=
  let key := cs.url ++ "|" ++ code
  match cacheLookup c key with
  | some e =>
    if e.id == 0 then resolveMiss cs d c code key
    else .ok (e.id, e.isRelationship, d, c)
  | none => resolveMiss cs d c code key

/-- Whether two Coding_Property rows collide on the effective unique key,
the triple of coding, property and value. -/
def tripleMatches (a b : CodingPropertyRow) : Bool :=
  a.coding == b.coding && a.property == b.property && a.value == b.value

/-- Modelled from the spec: ignoreOnConflict on the Coding_Property table,
whose effective unique key is the triple of coding, property and value.
Insert the row, or discard it silently when a row with the same triple
already exists. -/
def insertCodingPropertyIgnore (l : List CodingPropertyRow) (row : CodingPropertyRow) :
    List CodingPropertyRow :=
  if l.any (fun r => tripleMatches r row) then l else l ++ [row]

/-- The row built by the property writer for one batch entry: coding,
property and value always; for a relationship, the target column is set to
the id of the Coding row whose code equals the value, unless that lookup
is falsy, in which case the column stays unset. -/
def buildRow (cs : CodeSystem) (dr : Database) (cid propId : Nat) (isRel : Bool)
    (imp : ImportedProperty) : CodingPropertyRow :=
  if isRel then
    if (lookupCodingId dr.codings cs.id imp.value).getD 0 == 0 then
      ⟨cid, propId, imp.value, none⟩
    else ⟨cid, propId, imp.value, some ((lookupCodingId dr.codings cs.id imp.value).getD 0)⟩
  else ⟨cid, propId, imp.value, none⟩

/-- One iteration of the property writer loop: locate the owning concept
(fail with the Unknown code diagnostic when the id lookup is falsy),
resolve the property through the cache, build the row (resolving the
relationship target when applicable), and insert it under
ignoreOnConflict. -/
def processProperty (cs : CodeSystem) (d : Database) (c : Cache)
    (imp : ImportedProperty) : Except String (Database × Cache) :=
  let cid := (lookupCodingId d.codings cs.id imp.code).getD 0
  if cid == 0 then
    .error ("Unknown code: " ++ cs.url ++ "|" ++ imp.code)
  else
    match resolveCached cs d c imp.property with
    | .error e => .error e
    | .ok (propId, isRel, d1, c1) =>
      .ok ({ d1 with
        codingProps := insertCodingPropertyIgnore d1.codingProps
          (buildRow cs d1 cid propId isRel imp) }, c1)

/-- The property writer loop over the batch, threading store and cache. -/
def processPropertiesAux (cs : CodeSystem) :
    List ImportedProperty → Database → Cache → Except String Database
  | [], d, _ => .ok d
  | imp :: rest, d, c =>
    match processProperty cs d c imp with
    | .error e => .error e
    | .ok (d1, c1) => processPropertiesAux cs rest d1 c1

/-- processProperties: run the property writer over the batch starting
from the empty per-call cache. -/
def processProperties (props : List ImportedProperty) (cs : CodeSystem)
    (d : Database) : Except String Database :=
  processPropertiesAux cs props d []

/-- The body of importCodeSystem between BEGIN and COMMIT: run the concept
writer when the concept list is non-empty, then the property writer when
the property list is non-empty, over the transaction view of the store. -/
def importPending (cs : CodeSystem) (concepts : Option (List Concept))
    (props : Option (List ImportedProperty)) (d : Database) :
    Except String Database :=
  let d1 := if (concepts.getD []).isEmpty then d
            else applyConcepts cs (concepts.getD []) d
  if (props.getD []).isEmpty then .ok d1
  else processProperties (props.getD []) cs d1

/-- Modelled from the spec: BEGIN opens a transaction whose view starts
from the committed state. -/
def beginTx (s : Session) : Session := { s with pending := s.committed }

/-- Modelled from the spec: COMMIT publishes the pending view. -/
def commitTx (s : Session) : Session := { s with committed := s.pending }

/-- The orchestrator importCodeSystem: BEGIN, concept writer, property
writer, COMMIT.  A thrown error propagates before COMMIT is reached, so
the transaction is never committed; the host closing the session rolls the
pending work back, which the error branch models by discarding it.  The
returned option carries the diagnostic of the failure, if any. -/
def importCodeSystem (cs : CodeSystem) (concepts : Option (List Concept))
    (props : Option (List ImportedProperty)) (s : Session) :
    Session × Option String :=
  let s0 := beginTx s
  match importPending cs concepts props s0.pending with
  | .ok d2 => (commitTx { s0 with pending := d2 }, none)
  | .error e => ({ s0 with pending := s0.committed }, some e)

/-
Proof-side views.  The definitions below are not part of the engine; they
are derived descriptions of its behaviour used to state and prove the
theorems: a closed form for the concept writer, a well-formedness
invariant on the store, a consistency invariant on the resolution cache,
and the row that the property writer is expected to produce for one batch
entry.
-/

/-- Proof-side view: the last concept of the batch carrying a given code,
the one whose display wins under the upsert policy. -/
def lastConcept : List Concept → String → Option Concept
  | [], _ => none
  | c :: rest, x =>
    match lastConcept rest x with
    | some c2 => some c2
    | none => if c.code == x then some c else none

/-- Proof-side view: rewrite one Coding row to the display that the batch
assigns to its code, leaving rows of other systems or of codes outside the
batch alone. -/
def writeBackRow (cs : CodeSystem) (B : List Concept) (r : CodingRow) : CodingRow :=
  if r.system == cs.id then
    match lastConcept B r.code with
    | some c => { r with display := c.display }
    | none => r
  else r

/-- Proof-side view: the insert half of the concept writer only, appending
a fresh row for each batch code that is not yet present, threading the id
sequence. -/
def extendL (cs : CodeSystem) : List Concept → List CodingRow → Nat → List CodingRow × Nat
  | [], l, n => (l, n)
  | c :: rest, l, n =>
    if containsCoding l cs.id c.code then extendL cs rest l n
    else extendL cs rest (l ++ [⟨n, cs.id, c.code, c.display⟩]) (n + 1)

/-- Proof-side view: the number of CodeSystem_Property rows for one pair
of system and code. -/
def countP (l : List CodeSystemPropertyRow) (sys : Nat) (x : String) : Nat :=
  (l.filter fun r => r.system == sys && r.code == x).length

/-- Proof-side view: the owning coding id that the property writer uses
for one batch entry, read against a store. -/
def cidOf (cs : CodeSystem) (d : Database) (p : ImportedProperty) : Nat :=
  (lookupCodingId d.codings cs.id p.code).getD 0

/-- Proof-side view: the property definition id that the property writer
uses for one batch entry, read against a store. -/
def pidOf (cs : CodeSystem) (d : Database) (p : ImportedProperty) : Nat :=
  ((findCsProp d.csProps cs.id p.property).map (fun r => r.id)).getD 0

/-- Proof-side view: the target column that the property writer sets for a
relationship entry, read against a store: the id of the Coding row whose
code equals the value, absent when the lookup is falsy. -/
def tgtOf (cs : CodeSystem) (d : Database) (p : ImportedProperty) : Option Nat :=
  let t := (lookupCodingId d.codings cs.id p.value).getD 0
  if t == 0 then none else some t

/-- Proof-side view: well-formedness of the store as a real database
guarantees it: the id sequence starts at one, every issued id is below the
sequence, and CodeSystem_Property ids are pairwise distinct. -/
def DbInv (d : Database) : Prop :=
  1 ≤ d.nextId ∧
  (∀ r ∈ d.codings, 1 ≤ r.id ∧ r.id < d.nextId) ∧
  (∀ r ∈ d.csProps, r.id < d.nextId) ∧
  d.csProps.Pairwise (fun a b => a.id ≠ b.id)

instance (d : Database) : Decidable (DbInv d) := by
  unfold DbInv; infer_instance

/-- Proof-side view: the row that the property writer is expected to
commit for one batch entry, described against a reference store: owning
coding id, resolved property definition id, the textual value, and the
target column for relationships. -/
def expRow (cs : CodeSystem) (F : Database) (p : ImportedProperty) : CodingPropertyRow :=
  ⟨cidOf cs F p, pidOf cs F p, p.value, tgtOf cs F p⟩

/-- Proof-side view: every cache entry reflects the store: the code it
memoizes resolves purely with the stored relationship flag, and the stored
id is the id of the first matching CodeSystem_Property row. -/
def cacheConsistent (cs : CodeSystem) (d : Database) (c : Cache) : Prop :=
  ∀ code e, cacheLookup c (cs.url ++ "|" ++ code) = some e →
    (∃ pd, resolvePure cs code = .ok pd ∧ e.isRelationship = (pd.type == "code")) ∧
    (∃ row, findCsProp d.csProps cs.id code = some row ∧ row.id = e.id)

/-- Proof-side view: the display column of the Coding row for one code,
together with its existence; the content of the Coding table up to row
ids and row order. -/
def conceptView (d : Database) (sys : Nat) (x : String) : Option (Option String) :=
  (findCoding d.codings sys x).map (fun r => r.display)

/-
Concrete fixtures used by witnesses and counterexamples.
-/

/-- Fixture: a CodeSystem with no declared properties and no
hierarchyMeaning. -/
def csEx : CodeSystem := ⟨1, "http://ex/cs", none, none⟩

/-- Fixture: a CodeSystem whose hierarchyMeaning is the string isa. -/
def csIsa : CodeSystem := ⟨2, "http://ex/cs2", some "isa", none⟩

/-- Fixture: a CodeSystem declaring a property whose code is the string
proto-dunder, as a crafted cache key. -/
def csProto : CodeSystem := ⟨3, "http://ex/cs3", none,
  some [⟨"__proto__", none, "string", none⟩]⟩

/-- Fixture: the empty store with the id sequence at one. -/
def dbEmpty : Database := ⟨[], [], [], 1⟩

/-- Fixture: a session over the empty store. -/
def sessionEmpty : Session := ⟨dbEmpty, dbEmpty⟩

/-- Fixture: the store produced by importing concept A and the property
triple of A, parent, X into the empty store. -/
def dbFix1 : Database :=
  ⟨[⟨1, 1, "A", none⟩], [⟨2, 1, "parent", "code", some parentProperty, none⟩],
    [⟨1, 2, "X", none⟩], 3⟩

/-- Fixture: a store holding concept B, the parent property definition,
and a Coding_Property row for B with value A whose target is unset, as
left behind by an earlier import made before concept A existed. -/
def dbPre : Database :=
  ⟨[⟨1, 1, "B", none⟩], [⟨2, 1, "parent", "code", some parentProperty, none⟩],
    [⟨1, 2, "A", none⟩], 3⟩

/-- Fixture: the store dbPre after importing concept A together with the
property triple of B, parent, A.  The conflicting row keeps its unset
target. -/
def dbPreF : Database :=
  ⟨[⟨1, 1, "B", none⟩, ⟨3, 1, "A", none⟩],
    [⟨2, 1, "parent", "code", some parentProperty, none⟩],
    [⟨1, 2, "A", none⟩], 4⟩

/-- Fixture: the store produced by importing concepts B then A and the
property triple of B, parent, A into the empty store. -/
def dbC4 : Database :=
  ⟨[⟨1, 1, "B", none⟩, ⟨2, 1, "A", none⟩],
    [⟨3, 1, "parent", "code", some parentProperty, none⟩],
    [⟨1, 3, "A", some 2⟩], 4⟩

/-- Fixture: the store produced by importing the concept A twice, display
x then display y, into the empty store. -/
def dbAxy : Database := ⟨[⟨1, 1, "A", some "y"⟩], [], [], 2⟩

/-- Fixture: the store produced by importing the concept A twice, display
y then display x, into the empty store. -/
def dbAyx : Database := ⟨[⟨1, 1, "A", some "x"⟩], [], [], 2⟩

/-- Fixture: the store produced by importing concepts A then B and the
property triple of B, parent, A into the empty store. -/
def dbS1 : Database :=
  ⟨[⟨1, 1, "A", none⟩, ⟨2, 1, "B", none⟩],
    [⟨3, 1, "parent", "code", some parentProperty, none⟩],
    [⟨2, 3, "A", some 1⟩], 4⟩

/-
Lemma layer I: a closed form for the concept writer.  applyConcepts is
the insert-only pass extendL followed by the display rewrite writeBackRow;
from this closed form idempotence and permutation facts follow.
-/

theorem bool_eq_false {b : Bool} (h : ¬ b = true) : b = false := by
  cases b with
  | false => rfl
  | true => exact absurd rfl h

theorem database_ext {a b : Database} (h1 : a.codings = b.codings)
    (h2 : a.csProps = b.csProps) (h3 : a.codingProps = b.codingProps)
    (h4 : a.nextId = b.nextId) : a = b := by
  cases a; cases b; simp_all

theorem extendL_cons (cs : CodeSystem) (c : Concept) (rest : List Concept)
    (l : List CodingRow) (n : Nat) :
    extendL cs (c :: rest) l n =
      if containsCoding l cs.id c.code then extendL cs rest l n
      else extendL cs rest (l ++ [⟨n, cs.id, c.code, c.display⟩]) (n + 1) := rfl

theorem applyConcepts_cons (cs : CodeSystem) (c : Concept) (rest : List Concept)
    (d : Database) :
    applyConcepts cs (c :: rest) d = applyConcepts cs rest (upsertCoding cs c d) := rfl

theorem mergeRow_system (cs : CodeSystem) (c : Concept) (r : CodingRow) :
    (mergeRow cs c r).system = r.system := by
  unfold mergeRow; split <;> rfl

theorem mergeRow_code (cs : CodeSystem) (c : Concept) (r : CodingRow) :
    (mergeRow cs c r).code = r.code := by
  unfold mergeRow; split <;> rfl

theorem writeBackRow_system (cs : CodeSystem) (B : List Concept) (r : CodingRow) :
    (writeBackRow cs B r).system = r.system := by
  unfold writeBackRow; split
  · split <;> rfl
  · rfl

theorem writeBackRow_code (cs : CodeSystem) (B : List Concept) (r : CodingRow) :
    (writeBackRow cs B r).code = r.code := by
  unfold writeBackRow; split
  · split <;> rfl
  · rfl

theorem containsCoding_map (l : List CodingRow) (sys : Nat) (x : String)
    (f : CodingRow → CodingRow)
    (hf : ∀ r, (f r).system = r.system ∧ (f r).code = r.code) :
    containsCoding (l.map f) sys x = containsCoding l sys x := by
  unfold containsCoding
  rw [List.any_map]
  apply congrArg
  funext r
  simp [Function.comp, (hf r).1, (hf r).2]

theorem containsCoding_append (l s : List CodingRow) (sys : Nat) (x : String) :
    containsCoding (l ++ s) sys x = (containsCoding l sys x || containsCoding s sys x) := by
  simp [containsCoding]

theorem writeBackRow_nil (cs : CodeSystem) (r : CodingRow) :
    writeBackRow cs [] r = r := by
  unfold writeBackRow lastConcept; split <;> rfl

theorem writeBackRow_mergeRow (cs : CodeSystem) (c : Concept) (rest : List Concept)
    (r : CodingRow) :
    writeBackRow cs rest (mergeRow cs c r) = writeBackRow cs (c :: rest) r := by
  obtain ⟨i, sys, cd, disp⟩ := r
  by_cases hs : (sys == cs.id) = true
  · by_cases hc : (cd == c.code) = true
    · have hcc : cd = c.code := by simpa using hc
      cases h3 : lastConcept rest cd with
      | some c2 =>
        simp [mergeRow, writeBackRow, lastConcept, hs, hc, h3]
      | none =>
        have : (c.code == cd) = true := by simp [hcc]
        simp [mergeRow, writeBackRow, lastConcept, hs, hc, h3, this]
    · have hcc : ¬ cd = c.code := by simpa using hc
      have hne : (c.code == cd) = false := by
        simp only [beq_eq_false_iff_ne, ne_eq]
        exact fun h => hcc h.symm
      cases h3 : lastConcept rest cd with
      | some c2 => simp [mergeRow, writeBackRow, lastConcept, hs, hc, h3]
      | none => simp [mergeRow, writeBackRow, lastConcept, hs, hc, h3, hne]
  · simp [mergeRow, writeBackRow, hs]

theorem writeBackRow_cons_of_display (cs : CodeSystem) (c : Concept)
    (rest : List Concept) (r : CodingRow)
    (h : (r.system == cs.id) = true → (r.code == c.code) = true → r.display = c.display) :
    writeBackRow cs (c :: rest) r = writeBackRow cs rest r := by
  obtain ⟨i, sys, cd, disp⟩ := r
  by_cases hs : (sys == cs.id) = true
  · cases h3 : lastConcept rest cd with
    | some c2 => simp [writeBackRow, lastConcept, hs, h3]
    | none =>
      by_cases hc : (c.code == cd) = true
      · have hcd : (cd == c.code) = true := by
          have : c.code = cd := by simpa using hc
          simp [this]
        have hdisp : disp = c.display := h hs hcd
        simp [writeBackRow, lastConcept, hs, h3, hc, hdisp]
      · simp [writeBackRow, lastConcept, hs, h3, hc]
  · simp [writeBackRow, hs]

theorem writeBackRow_idem (cs : CodeSystem) (B : List Concept) (r : CodingRow) :
    writeBackRow cs B (writeBackRow cs B r) = writeBackRow cs B r := by
  obtain ⟨i, sys, cd, disp⟩ := r
  by_cases hs : (sys == cs.id) = true
  · cases h3 : lastConcept B cd with
    | some c2 => simp [writeBackRow, hs, h3]
    | none => simp [writeBackRow, hs, h3]
  · simp [writeBackRow, hs]

theorem extendL_new (cs : CodeSystem) (B : List Concept) (l : List CodingRow) (n : Nat) :
    ∃ s, (extendL cs B l n).1 = l ++ s ∧
      ∀ r ∈ s, r.system = cs.id ∧ containsCoding l cs.id r.code = false ∧
        ∃ c ∈ B, c.code = r.code := by
  induction B generalizing l n with
  | nil => exact ⟨[], by simp [extendL], fun r hr => absurd hr (List.not_mem_nil r)⟩
  | cons c rest ih =>
    by_cases hc : containsCoding l cs.id c.code = true
    · rw [extendL_cons, if_pos hc]
      obtain ⟨s, hs, hm⟩ := ih l n
      refine ⟨s, hs, fun r hr => ?_⟩
      obtain ⟨a, b, c2, hc2, hc3⟩ := hm r hr
      exact ⟨a, b, c2, List.mem_cons_of_mem _ hc2, hc3⟩
    · have hcf := bool_eq_false hc
      rw [extendL_cons, if_neg hc]
      obtain ⟨s, hs, hm⟩ := ih (l ++ [⟨n, cs.id, c.code, c.display⟩]) (n + 1)
      refine ⟨⟨n, cs.id, c.code, c.display⟩ :: s, ?_, ?_⟩
      · rw [hs, List.append_assoc]
        rfl
      · intro r hr
        rcases List.mem_cons.mp hr with h | h
        · subst h
          exact ⟨rfl, hcf, c, List.mem_cons_self _ _, rfl⟩
        · obtain ⟨h1, h2, c2, hc2, hc3⟩ := hm r h
          refine ⟨h1, ?_, c2, List.mem_cons_of_mem _ hc2, hc3⟩
          rw [containsCoding_append] at h2
          cases hq : containsCoding l cs.id r.code with
          | false => rfl
          | true => rw [hq] at h2; simp at h2

theorem containsCoding_extendL_mono (cs : CodeSystem) (B : List Concept)
    (l : List CodingRow) (n : Nat) (x : String)
    (h : containsCoding l cs.id x = true) :
    containsCoding (extendL cs B l n).1 cs.id x = true := by
  obtain ⟨s, hs, _⟩ := extendL_new cs B l n
  rw [hs, containsCoding_append, h]
  simp

theorem containsCoding_extendL_all (cs : CodeSystem) (B : List Concept)
    (l : List CodingRow) (n : Nat) :
    ∀ c ∈ B, containsCoding (extendL cs B l n).1 cs.id c.code = true := by
  induction B generalizing l n with
  | nil => intro c hc; cases hc
  | cons b rest ih =>
    intro c hc
    rcases List.mem_cons.mp hc with h | h
    · subst h
      by_cases hb : containsCoding l cs.id c.code = true
      · rw [extendL_cons, if_pos hb]
        exact containsCoding_extendL_mono cs rest l n c.code hb
      · rw [extendL_cons, if_neg hb]
        apply containsCoding_extendL_mono
        rw [containsCoding_append]
        have h1 : containsCoding [(⟨n, cs.id, c.code, c.display⟩ : CodingRow)]
            cs.id c.code = true := by
          simp [containsCoding]
        rw [h1]
        simp
    · by_cases hb : containsCoding l cs.id b.code = true
      · rw [extendL_cons, if_pos hb]
        exact ih l n c h
      · rw [extendL_cons, if_neg hb]
        exact ih _ _ c h

theorem extendL_eq_of_contains (cs : CodeSystem) (B : List Concept)
    (l : List CodingRow) (n : Nat)
    (h : ∀ c ∈ B, containsCoding l cs.id c.code = true) :
    extendL cs B l n = (l, n) := by
  induction B with
  | nil => rfl
  | cons c rest ih =>
    rw [extendL_cons, if_pos (h c (List.mem_cons_self _ _))]
    exact ih fun b hb => h b (List.mem_cons_of_mem _ hb)

theorem extendL_map_merge (cs : CodeSystem) (c : Concept) (B : List Concept)
    (l : List CodingRow) (n : Nat)
    (hc : containsCoding l cs.id c.code = true) :
    extendL cs B (l.map (mergeRow cs c)) n =
      ((extendL cs B l n).1.map (mergeRow cs c), (extendL cs B l n).2) := by
  induction B generalizing l n with
  | nil => rfl
  | cons b rest ih =>
    have hmap : containsCoding (l.map (mergeRow cs c)) cs.id b.code =
        containsCoding l cs.id b.code :=
      containsCoding_map _ _ _ _ fun r => ⟨mergeRow_system cs c r, mergeRow_code cs c r⟩
    by_cases hb : containsCoding l cs.id b.code = true
    · rw [extendL_cons, extendL_cons, if_pos hb, if_pos (by rw [hmap]; exact hb)]
      exact ih l n hc
    · have hbf := bool_eq_false hb
      have hne : b.code ≠ c.code := fun h => by
        rw [h, hc] at hbf
        exact Bool.noConfusion hbf
      have hcond : ¬ ((⟨n, cs.id, b.code, b.display⟩ : CodingRow).system == cs.id &&
          (⟨n, cs.id, b.code, b.display⟩ : CodingRow).code == c.code) = true := by
        simp only [Bool.and_eq_true, beq_iff_eq]
        rintro ⟨-, h2⟩
        exact hne h2
      have hrow : mergeRow cs c ⟨n, cs.id, b.code, b.display⟩ =
          ⟨n, cs.id, b.code, b.display⟩ := by
        unfold mergeRow
        rw [if_neg hcond]
      rw [extendL_cons, extendL_cons, if_neg hb, if_neg (by rw [hmap]; exact hb)]
      have harg : l.map (mergeRow cs c) ++ [(⟨n, cs.id, b.code, b.display⟩ : CodingRow)] =
          (l ++ [(⟨n, cs.id, b.code, b.display⟩ : CodingRow)]).map (mergeRow cs c) := by
        rw [List.map_append]
        simp [hrow]
      rw [harg]
      have hc2 : containsCoding (l ++ [⟨n, cs.id, b.code, b.display⟩]) cs.id c.code = true := by
        rw [containsCoding_append, hc]
        simp
      exact ih _ _ hc2

theorem applyConcepts_eq (cs : CodeSystem) (B : List Concept) (d : Database) :
    applyConcepts cs B d =
      { d with
        codings := (extendL cs B d.codings d.nextId).1.map (writeBackRow cs B),
        nextId := (extendL cs B d.codings d.nextId).2 } := by
  induction B generalizing d with
  | nil =>
    have h : d.codings.map (writeBackRow cs []) = d.codings := by
      have h2 : d.codings.map (writeBackRow cs []) = d.codings.map id :=
        List.map_congr_left fun r _ => writeBackRow_nil cs r
      rw [h2, List.map_id]
    show d = _
    apply database_ext
    · exact h.symm
    · rfl
    · rfl
    · rfl
  | cons c rest ih =>
    rw [applyConcepts_cons]
    by_cases hc : containsCoding d.codings cs.id c.code = true
    · have hup : upsertCoding cs c d =
          { d with codings := d.codings.map (mergeRow cs c) } := by
        unfold upsertCoding; rw [if_pos hc]
      rw [hup, ih]
      apply database_ext
      · show (extendL cs rest (d.codings.map (mergeRow cs c)) d.nextId).1.map
            (writeBackRow cs rest) =
          (extendL cs (c :: rest) d.codings d.nextId).1.map (writeBackRow cs (c :: rest))
        rw [extendL_map_merge cs c rest d.codings d.nextId hc]
        show ((extendL cs rest d.codings d.nextId).1.map (mergeRow cs c)).map
            (writeBackRow cs rest) = _
        rw [List.map_map, extendL_cons, if_pos hc]
        exact List.map_congr_left fun r _ => writeBackRow_mergeRow cs c rest r
      · rfl
      · rfl
      · show (extendL cs rest (d.codings.map (mergeRow cs c)) d.nextId).2 =
          (extendL cs (c :: rest) d.codings d.nextId).2
        rw [extendL_map_merge cs c rest d.codings d.nextId hc, extendL_cons, if_pos hc]
    · have hcf := bool_eq_false hc
      have hup : upsertCoding cs c d =
          { d with
            codings := d.codings ++ [⟨d.nextId, cs.id, c.code, c.display⟩],
            nextId := d.nextId + 1 } := by
        unfold upsertCoding; rw [if_neg hc]
      rw [hup, ih]
      apply database_ext
      · show (extendL cs rest (d.codings ++ [⟨d.nextId, cs.id, c.code, c.display⟩])
            (d.nextId + 1)).1.map (writeBackRow cs rest) =
          (extendL cs (c :: rest) d.codings d.nextId).1.map (writeBackRow cs (c :: rest))
        rw [extendL_cons, if_neg hc]
        apply List.map_congr_left
        intro r hr
        refine (writeBackRow_cons_of_display cs c rest r ?_).symm
        intro hsys hcode
        have hrc : r.code = c.code := by simpa using hcode
        obtain ⟨s, hs, hm⟩ :=
          extendL_new cs rest (d.codings ++ [⟨d.nextId, cs.id, c.code, c.display⟩])
            (d.nextId + 1)
        rw [hs] at hr
        rcases List.mem_append.mp hr with h | h
        · rcases List.mem_append.mp h with h2 | h2
          · exfalso
            have hcon : containsCoding d.codings cs.id c.code = true := by
              unfold containsCoding
              rw [List.any_eq_true]
              refine ⟨r, h2, ?_⟩
              rw [Bool.and_eq_true]
              exact ⟨hsys, by simp [hrc]⟩
            exact Bool.noConfusion (hcf.symm.trans hcon)
          · have hr2 : r = ⟨d.nextId, cs.id, c.code, c.display⟩ := by simpa using h2
            rw [hr2]
        · obtain ⟨h1, h2, _⟩ := hm r h
          exfalso
          have hcon : containsCoding
              (d.codings ++ [⟨d.nextId, cs.id, c.code, c.display⟩]) cs.id r.code = true := by
            rw [containsCoding_append]
            have h3 : containsCoding [(⟨d.nextId, cs.id, c.code, c.display⟩ : CodingRow)]
                cs.id r.code = true := by
              simp [containsCoding, hrc]
            rw [h3]
            simp
          exact Bool.noConfusion (h2.symm.trans hcon)
      · rfl
      · rfl
      · show (extendL cs rest (d.codings ++ [⟨d.nextId, cs.id, c.code, c.display⟩])
            (d.nextId + 1)).2 = (extendL cs (c :: rest) d.codings d.nextId).2
        rw [extendL_cons, if_neg hc]

theorem containsCoding_applyConcepts_all (cs : CodeSystem) (B : List Concept)
    (d : Database) :
    ∀ c ∈ B, containsCoding (applyConcepts cs B d).codings cs.id c.code = true := by
  intro c hc
  rw [applyConcepts_eq]
  show containsCoding ((extendL cs B d.codings d.nextId).1.map (writeBackRow cs B))
    cs.id c.code = true
  rw [containsCoding_map _ _ _ _ fun r =>
    ⟨writeBackRow_system cs B r, writeBackRow_code cs B r⟩]
  exact containsCoding_extendL_all cs B d.codings d.nextId c hc

theorem map_writeBackRow_applyConcepts (cs : CodeSystem) (B : List Concept)
    (d : Database) :
    (applyConcepts cs B d).codings.map (writeBackRow cs B) = (applyConcepts cs B d).codings := by
  rw [applyConcepts_eq]
  show ((extendL cs B d.codings d.nextId).1.map (writeBackRow cs B)).map
      (writeBackRow cs B) = _
  rw [List.map_map]
  exact List.map_congr_left fun r _ => writeBackRow_idem cs B r

theorem applyConcepts_eq_self (cs : CodeSystem) (B : List Concept) (d2 : Database)
    (h1 : ∀ c ∈ B, containsCoding d2.codings cs.id c.code = true)
    (h2 : d2.codings.map (writeBackRow cs B) = d2.codings) :
    applyConcepts cs B d2 = d2 := by
  rw [applyConcepts_eq, extendL_eq_of_contains cs B d2.codings d2.nextId h1]
  apply database_ext
  · exact h2
  · rfl
  · rfl
  · rfl

theorem applyConcepts_idem (cs : CodeSystem) (B : List Concept) (d : Database) :
    applyConcepts cs B (applyConcepts cs B d) = applyConcepts cs B d :=
  applyConcepts_eq_self cs B (applyConcepts cs B d)
    (containsCoding_applyConcepts_all cs B d)
    (map_writeBackRow_applyConcepts cs B d)

theorem applyConcepts_csProps (cs : CodeSystem) (B : List Concept) (d : Database) :
    (applyConcepts cs B d).csProps = d.csProps := by
  induction B generalizing d with
  | nil => rfl
  | cons c rest ih =>
    rw [applyConcepts_cons, ih]
    unfold upsertCoding; split <;> rfl

theorem applyConcepts_codingProps (cs : CodeSystem) (B : List Concept) (d : Database) :
    (applyConcepts cs B d).codingProps = d.codingProps := by
  induction B generalizing d with
  | nil => rfl
  | cons c rest ih =>
    rw [applyConcepts_cons, ih]
    unfold upsertCoding; split <;> rfl
/-
Lemma layer II: forward equations and inversion principles for the
property writer, append monotonicity of one call, and the replay lemma:
running the property writer again over its own output changes nothing.
-/

theorem not_eq_true_of_eq_false {b : Bool} (h : b = false) : ¬ b = true := by
  rw [h]; simp

theorem processPropertiesAux_nil (cs : CodeSystem) (d : Database) (c : Cache) :
    processPropertiesAux cs [] d c = .ok d := rfl

theorem processPropertiesAux_cons (cs : CodeSystem) (p : ImportedProperty)
    (rest : List ImportedProperty) (d : Database) (c : Cache) :
    processPropertiesAux cs (p :: rest) d c =
      match processProperty cs d c p with
      | .error e => .error e
      | .ok (d1, c1) => processPropertiesAux cs rest d1 c1 := rfl

theorem resolveProperty_found (cs : CodeSystem) (code : String) (d : Database)
    (pd : PropertyDef) (row : CodeSystemPropertyRow)
    (hpure : resolvePure cs code = .ok pd)
    (hfind : findCsProp d.csProps cs.id code = some row) :
    resolveProperty cs code d = .ok (row.id, pd.type == "code", d) := by
  simp only [resolveProperty]
  rw [hpure]
  simp only []
  rw [hfind]

theorem resolveProperty_insert (cs : CodeSystem) (code : String) (d : Database)
    (pd : PropertyDef)
    (hpure : resolvePure cs code = .ok pd)
    (hfind : findCsProp d.csProps cs.id code = none) :
    resolveProperty cs code d = .ok (d.nextId, pd.type == "code",
      { d with
        csProps := d.csProps ++ [⟨d.nextId, cs.id, code, pd.type, pd.uri, pd.description⟩],
        nextId := d.nextId + 1 }) := by
  simp only [resolveProperty]
  rw [hpure]
  simp only []
  rw [hfind]

theorem resolveProperty_ok (cs : CodeSystem) (code : String) (d : Database)
    (i : Nat) (r : Bool) (d1 : Database)
    (h : resolveProperty cs code d = .ok (i, r, d1)) :
    ∃ pd, resolvePure cs code = .ok pd ∧ r = (pd.type == "code") ∧
      ((∃ row, findCsProp d.csProps cs.id code = some row ∧ i = row.id ∧ d1 = d) ∨
       (findCsProp d.csProps cs.id code = none ∧ i = d.nextId ∧
        d1 = { d with
          csProps := d.csProps ++ [⟨d.nextId, cs.id, code, pd.type, pd.uri, pd.description⟩],
          nextId := d.nextId + 1 })) := by
  cases hres : resolvePure cs code with
  | error e =>
    unfold resolveProperty at h
    rw [hres] at h
    simp at h
  | ok pd =>
    cases hfind : findCsProp d.csProps cs.id code with
    | some known =>
      rw [resolveProperty_found cs code d pd known hres hfind] at h
      simp only [Except.ok.injEq, Prod.mk.injEq] at h
      obtain ⟨h1, h2, h3⟩ := h
      exact ⟨pd, rfl, h2.symm, Or.inl ⟨known, rfl, h1.symm, h3.symm⟩⟩
    | none =>
      rw [resolveProperty_insert cs code d pd hres hfind] at h
      simp only [Except.ok.injEq, Prod.mk.injEq] at h
      obtain ⟨h1, h2, h3⟩ := h
      exact ⟨pd, rfl, h2.symm, Or.inr ⟨rfl, h1.symm, h3.symm⟩⟩

theorem resolveMiss_eq (cs : CodeSystem) (d : Database) (c : Cache)
    (code key : String) (i : Nat) (r : Bool) (d1 : Database)
    (hrp : resolveProperty cs code d = .ok (i, r, d1)) :
    resolveMiss cs d c code key = .ok (i, r, d1, cacheInsert c key ⟨i, r⟩) := by
  simp only [resolveMiss]
  rw [hrp]

theorem resolveCached_hit (cs : CodeSystem) (d : Database) (c : Cache)
    (code : String) (e : CacheEntry)
    (hl : cacheLookup c (cs.url ++ "|" ++ code) = some e)
    (hz : (e.id == 0) = false) :
    resolveCached cs d c code = .ok (e.id, e.isRelationship, d, c) := by
  simp only [resolveCached]
  rw [hl]
  simp [hz]

theorem resolveCached_miss_none (cs : CodeSystem) (d : Database) (c : Cache)
    (code : String)
    (hl : cacheLookup c (cs.url ++ "|" ++ code) = none) :
    resolveCached cs d c code = resolveMiss cs d c code (cs.url ++ "|" ++ code) := by
  simp only [resolveCached]
  rw [hl]

theorem resolveCached_miss_zero (cs : CodeSystem) (d : Database) (c : Cache)
    (code : String) (e : CacheEntry)
    (hl : cacheLookup c (cs.url ++ "|" ++ code) = some e)
    (hz : (e.id == 0) = true) :
    resolveCached cs d c code = resolveMiss cs d c code (cs.url ++ "|" ++ code) := by
  simp only [resolveCached]
  rw [hl]
  simp [hz]

theorem resolveCached_ok (cs : CodeSystem) (d : Database) (c : Cache) (code : String)
    (i : Nat) (r : Bool) (d1 : Database) (c1 : Cache)
    (h : resolveCached cs d c code = .ok (i, r, d1, c1)) :
    (cacheLookup c (cs.url ++ "|" ++ code) = some ⟨i, r⟩ ∧ (i == 0) = false ∧
      d1 = d ∧ c1 = c) ∨
    ((cacheLookup c (cs.url ++ "|" ++ code) = none ∨
      ∃ e, cacheLookup c (cs.url ++ "|" ++ code) = some e ∧ (e.id == 0) = true) ∧
     resolveProperty cs code d = .ok (i, r, d1) ∧
     c1 = cacheInsert c (cs.url ++ "|" ++ code) ⟨i, r⟩) := by
  have hmiss : resolveMiss cs d c code (cs.url ++ "|" ++ code) = .ok (i, r, d1, c1) →
      resolveProperty cs code d = .ok (i, r, d1) ∧
      c1 = cacheInsert c (cs.url ++ "|" ++ code) ⟨i, r⟩ := by
    intro hm
    cases hrp : resolveProperty cs code d with
    | error e2 =>
      unfold resolveMiss at hm
      rw [hrp] at hm
      simp at hm
    | ok trip =>
      obtain ⟨i0, r0, dd⟩ := trip
      rw [resolveMiss_eq cs d c code _ i0 r0 dd hrp] at hm
      simp only [Except.ok.injEq, Prod.mk.injEq] at hm
      obtain ⟨h1, h2, h3, h4⟩ := hm
      subst h1; subst h2; subst h3
      exact ⟨rfl, h4.symm⟩
  cases hl : cacheLookup c (cs.url ++ "|" ++ code) with
  | none =>
    rw [resolveCached_miss_none cs d c code hl] at h
    exact Or.inr ⟨Or.inl rfl, hmiss h⟩
  | some e =>
    cases hz : (e.id == 0) with
    | true =>
      rw [resolveCached_miss_zero cs d c code e hl hz] at h
      exact Or.inr ⟨Or.inr ⟨e, rfl, hz⟩, hmiss h⟩
    | false =>
      rw [resolveCached_hit cs d c code e hl hz] at h
      simp only [Except.ok.injEq, Prod.mk.injEq] at h
      obtain ⟨h1, h2, h3, h4⟩ := h
      subst h1; subst h2; subst h3; subst h4
      exact Or.inl ⟨rfl, hz, rfl, rfl⟩

theorem processProperty_eq_ok (cs : CodeSystem) (d : Database) (c : Cache)
    (p : ImportedProperty) (propId : Nat) (isRel : Bool) (dr : Database) (c1 : Cache)
    (hz : ((lookupCodingId d.codings cs.id p.code).getD 0 == 0) = false)
    (hrc : resolveCached cs d c p.property = .ok (propId, isRel, dr, c1)) :
    processProperty cs d c p = .ok ({ dr with
      codingProps := insertCodingPropertyIgnore dr.codingProps
        (buildRow cs dr ((lookupCodingId d.codings cs.id p.code).getD 0)
          propId isRel p) }, c1) := by
  simp only [processProperty]
  rw [hz]
  simp only [Bool.false_eq_true, if_false]
  rw [hrc]

theorem processProperty_eq_err (cs : CodeSystem) (d : Database) (c : Cache)
    (p : ImportedProperty)
    (hz : ((lookupCodingId d.codings cs.id p.code).getD 0 == 0) = true) :
    processProperty cs d c p = .error ("Unknown code: " ++ cs.url ++ "|" ++ p.code) := by
  simp only [processProperty]
  rw [hz]
  simp

theorem processProperty_eq_err2 (cs : CodeSystem) (d : Database) (c : Cache)
    (p : ImportedProperty) (e : String)
    (hz : ((lookupCodingId d.codings cs.id p.code).getD 0 == 0) = false)
    (hrc : resolveCached cs d c p.property = .error e) :
    processProperty cs d c p = .error e := by
  simp only [processProperty]
  rw [hz]
  simp only [Bool.false_eq_true, if_false]
  rw [hrc]

theorem processProperty_ok_inv (cs : CodeSystem) (d : Database) (c : Cache)
    (p : ImportedProperty) (d1 : Database) (c1 : Cache)
    (h : processProperty cs d c p = .ok (d1, c1)) :
    ∃ propId isRel dr,
      ((lookupCodingId d.codings cs.id p.code).getD 0 == 0) = false ∧
      resolveCached cs d c p.property = .ok (propId, isRel, dr, c1) ∧
      d1 = { dr with
        codingProps := insertCodingPropertyIgnore dr.codingProps
          (buildRow cs dr ((lookupCodingId d.codings cs.id p.code).getD 0)
            propId isRel p) } := by
  cases hz : ((lookupCodingId d.codings cs.id p.code).getD 0 == 0) with
  | true =>
    rw [processProperty_eq_err cs d c p hz] at h
    simp at h
  | false =>
    cases hrc : resolveCached cs d c p.property with
    | error e =>
      rw [processProperty_eq_err2 cs d c p e hz hrc] at h
      simp at h
    | ok quad =>
      obtain ⟨propId, isRel, dr, cr⟩ := quad
      rw [processProperty_eq_ok cs d c p propId isRel dr cr hz hrc] at h
      simp only [Except.ok.injEq, Prod.mk.injEq] at h
      obtain ⟨h1, h2⟩ := h
      subst h2
      exact ⟨propId, isRel, dr, rfl, rfl, h1.symm⟩

theorem insertCodingPropertyIgnore_append (l : List CodingPropertyRow)
    (row : CodingPropertyRow) :
    ∃ s, insertCodingPropertyIgnore l row = l ++ s := by
  unfold insertCodingPropertyIgnore
  split
  · exact ⟨[], by simp⟩
  · exact ⟨[row], rfl⟩

theorem insertCodingPropertyIgnore_mem (l : List CodingPropertyRow)
    (row : CodingPropertyRow) :
    ∃ r ∈ insertCodingPropertyIgnore l row, tripleMatches r row = true := by
  unfold insertCodingPropertyIgnore
  split
  · rename_i hany
    obtain ⟨r, hr, hm⟩ := List.any_eq_true.mp hany
    exact ⟨r, hr, hm⟩
  · refine ⟨row, List.mem_append_right _ (List.mem_cons_self _ _), ?_⟩
    simp [tripleMatches]

theorem resolveCached_state (cs : CodeSystem) (d : Database) (c : Cache) (code : String)
    (i : Nat) (r : Bool) (d1 : Database) (c1 : Cache)
    (h : resolveCached cs d c code = .ok (i, r, d1, c1)) :
    d1.codings = d.codings ∧ (∃ s, d1.csProps = d.csProps ++ s) ∧
    d1.codingProps = d.codingProps := by
  rcases resolveCached_ok cs d c code i r d1 c1 h with ⟨_, _, h3, _⟩ | ⟨_, hrp, _⟩
  · rw [h3]; exact ⟨rfl, ⟨[], by simp⟩, rfl⟩
  · obtain ⟨pd, _, _, hcase⟩ := resolveProperty_ok cs code d i r d1 hrp
    rcases hcase with ⟨row, _, _, h3⟩ | ⟨_, _, h3⟩
    · rw [h3]; exact ⟨rfl, ⟨[], by simp⟩, rfl⟩
    · rw [h3]
      exact ⟨rfl, ⟨[⟨d.nextId, cs.id, code, pd.type, pd.uri, pd.description⟩], rfl⟩, rfl⟩

theorem processProperty_mono (cs : CodeSystem) (d : Database) (c : Cache)
    (p : ImportedProperty) (d1 : Database) (c1 : Cache)
    (h : processProperty cs d c p = .ok (d1, c1)) :
    d1.codings = d.codings ∧ (∃ s, d1.csProps = d.csProps ++ s) ∧
    (∃ s2, d1.codingProps = d.codingProps ++ s2) := by
  obtain ⟨propId, isRel, dr, hz, hrc, hd1⟩ := processProperty_ok_inv cs d c p d1 c1 h
  obtain ⟨hc1, hc2, hc3⟩ := resolveCached_state cs d c p.property propId isRel dr c1 hrc
  obtain ⟨s2, hs2⟩ := insertCodingPropertyIgnore_append dr.codingProps
    (buildRow cs dr ((lookupCodingId d.codings cs.id p.code).getD 0) propId isRel p)
  refine ⟨?_, ?_, ⟨s2, ?_⟩⟩
  · rw [hd1]; exact hc1
  · rw [hd1]; exact hc2
  · rw [hd1]
    show insertCodingPropertyIgnore dr.codingProps
      (buildRow cs dr ((lookupCodingId d.codings cs.id p.code).getD 0) propId isRel p) =
      d.codingProps ++ s2
    rw [hs2, hc3]

theorem processPropertiesAux_ok_mono (cs : CodeSystem) (props : List ImportedProperty)
    (d : Database) (c : Cache) (d2 : Database)
    (h : processPropertiesAux cs props d c = .ok d2) :
    d2.codings = d.codings ∧ (∃ s, d2.csProps = d.csProps ++ s) ∧
    (∃ s2, d2.codingProps = d.codingProps ++ s2) := by
  induction props generalizing d c with
  | nil =>
    rw [processPropertiesAux_nil] at h
    have hd : d = d2 := by simpa using h
    subst hd
    exact ⟨rfl, ⟨[], by simp⟩, ⟨[], by simp⟩⟩
  | cons p rest ih =>
    rw [processPropertiesAux_cons] at h
    cases hstep : processProperty cs d c p with
    | error e => rw [hstep] at h; simp at h
    | ok pair =>
      obtain ⟨d1, c1⟩ := pair
      rw [hstep] at h
      simp only [] at h
      obtain ⟨m1, ⟨s, hs⟩, ⟨s2, hs2⟩⟩ := processProperty_mono cs d c p d1 c1 hstep
      obtain ⟨n1, ⟨t, ht⟩, ⟨t2, ht2⟩⟩ := ih d1 c1 h
      refine ⟨n1.trans m1, ⟨s ++ t, ?_⟩, ⟨s2 ++ t2, ?_⟩⟩
      · rw [ht, hs, List.append_assoc]
      · rw [ht2, hs2, List.append_assoc]

theorem findCsProp_append_some (l s : List CodeSystemPropertyRow) (sys : Nat)
    (x : String) (row : CodeSystemPropertyRow)
    (h : findCsProp l sys x = some row) : findCsProp (l ++ s) sys x = some row := by
  unfold findCsProp at h ⊢
  rw [List.find?_append, h]
  rfl

theorem findCsProp_append_none (l s : List CodeSystemPropertyRow) (sys : Nat)
    (x : String) (h : findCsProp l sys x = none) :
    findCsProp (l ++ s) sys x = findCsProp s sys x := by
  unfold findCsProp at h ⊢
  rw [List.find?_append, h]
  rfl

theorem findCsProp_self (l : List CodeSystemPropertyRow) (sys : Nat) (x : String)
    (row : CodeSystemPropertyRow) (hs : row.system = sys) (hx : row.code = x) :
    findCsProp (row :: l) sys x = some row := by
  unfold findCsProp
  rw [List.find?_cons_of_pos]
  simp [hs, hx]

theorem processProperty_replay (cs : CodeSystem) (d : Database) (c : Cache)
    (p : ImportedProperty) (d1 : Database) (c1 : Cache)
    (h : processProperty cs d c p = .ok (d1, c1)) (d2 : Database)
    (hcod : d2.codings = d.codings)
    (hcs : ∃ s, d2.csProps = d1.csProps ++ s)
    (hcp : ∀ r ∈ d1.codingProps, r ∈ d2.codingProps) :
    processProperty cs d2 c p = .ok (d2, c1) := by
  obtain ⟨propId, isRel, dr, hz, hrc, hd1⟩ := processProperty_ok_inv cs d c p d1 c1 h
  obtain ⟨hr1, ⟨sr, hsr⟩, hr3⟩ := resolveCached_state cs d c p.property propId isRel dr c1 hrc
  have hd1cs : d1.csProps = dr.csProps := by rw [hd1]
  have hrc2 : resolveCached cs d2 c p.property = .ok (propId, isRel, d2, c1) := by
    rcases resolveCached_ok cs d c p.property propId isRel dr c1 hrc with
      ⟨hl, hnz, hdr, hc1⟩ | ⟨hbranch, hrp, hc1⟩
    · rw [hc1]
      exact resolveCached_hit cs d2 c p.property ⟨propId, isRel⟩ hl hnz
    · obtain ⟨pd, hpure, hrel, hcase⟩ := resolveProperty_ok cs p.property d propId isRel dr hrp
      have hrp2 : resolveProperty cs p.property d2 = .ok (propId, isRel, d2) := by
        rcases hcase with ⟨row, hfind, hid, hdr⟩ | ⟨hfind, hid, hdr⟩
        · have hfind2 : findCsProp d2.csProps cs.id p.property = some row := by
            obtain ⟨s, hs⟩ := hcs
            rw [hs, hd1cs, hdr]
            exact findCsProp_append_some _ _ _ _ _ hfind
          rw [resolveProperty_found cs p.property d2 pd row hpure hfind2, hid, hrel]
        · have hfind2 : findCsProp d2.csProps cs.id p.property =
              some ⟨d.nextId, cs.id, p.property, pd.type, pd.uri, pd.description⟩ := by
            obtain ⟨s, hs⟩ := hcs
            rw [hs, hd1cs, hdr]
            show findCsProp ((d.csProps ++
              [⟨d.nextId, cs.id, p.property, pd.type, pd.uri, pd.description⟩]) ++ s)
              cs.id p.property = _
            rw [List.append_assoc, findCsProp_append_none _ _ _ _ hfind]
            exact findCsProp_self _ _ _ _ rfl rfl
          rw [resolveProperty_found cs p.property d2 pd _ hpure hfind2, hid, hrel]
      rcases hbranch with hl | ⟨e, hl, he0⟩
      · rw [resolveCached_miss_none cs d2 c p.property hl,
          resolveMiss_eq cs d2 c p.property _ propId isRel d2 hrp2, hc1]
      · rw [resolveCached_miss_zero cs d2 c p.property e hl he0,
          resolveMiss_eq cs d2 c p.property _ propId isRel d2 hrp2, hc1]
  have hcid : lookupCodingId d2.codings cs.id p.code =
      lookupCodingId d.codings cs.id p.code := by rw [hcod]
  have hz2 : ((lookupCodingId d2.codings cs.id p.code).getD 0 == 0) = false := by
    rw [hcid]; exact hz
  have hrow : buildRow cs d2 ((lookupCodingId d2.codings cs.id p.code).getD 0)
      propId isRel p =
      buildRow cs dr ((lookupCodingId d.codings cs.id p.code).getD 0) propId isRel p := by
    unfold buildRow
    rw [hcod, hr1]
  have hany : (d2.codingProps.any fun r => tripleMatches r
      (buildRow cs dr ((lookupCodingId d.codings cs.id p.code).getD 0)
        propId isRel p)) = true := by
    rw [List.any_eq_true]
    obtain ⟨r0, hr0, hm0⟩ := insertCodingPropertyIgnore_mem dr.codingProps
      (buildRow cs dr ((lookupCodingId d.codings cs.id p.code).getD 0) propId isRel p)
    refine ⟨r0, hcp r0 ?_, hm0⟩
    rw [hd1]
    exact hr0
  have hins : insertCodingPropertyIgnore d2.codingProps
      (buildRow cs dr ((lookupCodingId d.codings cs.id p.code).getD 0)
        propId isRel p) = d2.codingProps := by
    unfold insertCodingPropertyIgnore
    rw [if_pos hany]
  have hfinal := processProperty_eq_ok cs d2 c p propId isRel d2 c1 hz2 hrc2
  rw [hrow, hins] at hfinal
  exact hfinal

theorem processPropertiesAux_replay (cs : CodeSystem) (props : List ImportedProperty)
    (d : Database) (c : Cache) (d2 : Database)
    (h : processPropertiesAux cs props d c = .ok d2) :
    processPropertiesAux cs props d2 c = .ok d2 := by
  induction props generalizing d c with
  | nil =>
    rw [processPropertiesAux_nil] at h
    have hd : d = d2 := by simpa using h
    subst hd
    rfl
  | cons p rest ih =>
    rw [processPropertiesAux_cons] at h
    cases hstep : processProperty cs d c p with
    | error e => rw [hstep] at h; simp at h
    | ok pair =>
      obtain ⟨d1, c1⟩ := pair
      rw [hstep] at h
      simp only [] at h
      obtain ⟨m1, hm2, ⟨t2, ht2⟩⟩ := processPropertiesAux_ok_mono cs rest d1 c1 d2 h
      have hstep2 : processProperty cs d2 c p = .ok (d2, c1) := by
        apply processProperty_replay cs d c p d1 c1 hstep d2
        · rw [m1, (processProperty_mono cs d c p d1 c1 hstep).1]
        · exact hm2
        · intro r hr
          rw [ht2]
          exact List.mem_append_left _ hr
      rw [processPropertiesAux_cons, hstep2]
      exact ih d1 c1 h

theorem importPending_idem (cs : CodeSystem) (co : Option (List Concept))
    (pr : Option (List ImportedProperty)) (d d2 : Database)
    (h : importPending cs co pr d = .ok d2) : importPending cs co pr d2 = .ok d2 := by
  unfold importPending at h ⊢
  by_cases hB : ((co.getD []).isEmpty : Bool) = true
  · rw [if_pos hB] at h ⊢
    by_cases hP : ((pr.getD []).isEmpty : Bool) = true
    · rw [if_pos hP] at h ⊢
    · rw [if_neg hP] at h ⊢
      exact processPropertiesAux_replay cs (pr.getD []) d [] d2 h
  · rw [if_neg hB] at h ⊢
    by_cases hP : ((pr.getD []).isEmpty : Bool) = true
    · rw [if_pos hP] at h ⊢
      have hd2 : applyConcepts cs (co.getD []) d = d2 := by simpa using h
      rw [← hd2, applyConcepts_idem]
    · rw [if_neg hP] at h ⊢
      have hcod : d2.codings = (applyConcepts cs (co.getD []) d).codings :=
        (processPropertiesAux_ok_mono cs (pr.getD []) _ [] d2 h).1
      have hself : applyConcepts cs (co.getD []) d2 = d2 := by
        apply applyConcepts_eq_self
        · intro c2 hc2
          rw [hcod]
          exact containsCoding_applyConcepts_all cs (co.getD []) d c2 hc2
        · rw [hcod]
          exact map_writeBackRow_applyConcepts cs (co.getD []) d
      rw [hself]
      exact processPropertiesAux_replay cs (pr.getD []) _ [] d2 h

/-
Lemma layer III: laws of the resolution cache, the cache consistency
invariant, the per-entry row description of the property writer, the
store well-formedness invariant, and counting of property definition
rows.
-/

theorem string_append_left_cancel (s a b : String) (h : s ++ a = s ++ b) : a = b := by
  have h2 := congrArg String.data h
  simp only [String.data_append] at h2
  exact String.ext (List.append_cancel_left h2)

theorem mergeRow_id (cs : CodeSystem) (c : Concept) (r : CodingRow) :
    (mergeRow cs c r).id = r.id := by
  unfold mergeRow; split <;> rfl

theorem codingPropertyRow_ext {a b : CodingPropertyRow} (h1 : a.coding = b.coding)
    (h2 : a.property = b.property) (h3 : a.value = b.value) (h4 : a.target = b.target) :
    a = b := by
  cases a; cases b; simp_all

theorem tripleMatches_iff (a b : CodingPropertyRow) :
    tripleMatches a b = true ↔
      a.coding = b.coding ∧ a.property = b.property ∧ a.value = b.value := by
  simp [tripleMatches, and_assoc]

theorem findCsProp_mem (l : List CodeSystemPropertyRow) (sys : Nat) (x : String)
    (row : CodeSystemPropertyRow) (h : findCsProp l sys x = some row) : row ∈ l :=
  List.mem_of_find?_eq_some h

theorem findCsProp_fields (l : List CodeSystemPropertyRow) (sys : Nat) (x : String)
    (row : CodeSystemPropertyRow) (h : findCsProp l sys x = some row) :
    row.system = sys ∧ row.code = x := by
  have := List.find?_some h
  simp only [Bool.and_eq_true, beq_iff_eq] at this
  exact this

theorem findCsProp_none_iff (l : List CodeSystemPropertyRow) (sys : Nat) (x : String) :
    findCsProp l sys x = none ↔ countP l sys x = 0 := by
  unfold findCsProp countP
  rw [List.find?_eq_none, List.length_eq_zero, List.filter_eq_nil_iff]

theorem countP_pos_of_find (l : List CodeSystemPropertyRow) (sys : Nat) (x : String)
    (row : CodeSystemPropertyRow) (h : findCsProp l sys x = some row) :
    1 ≤ countP l sys x := by
  have h2 : l.find? (fun r => r.system == sys && r.code == x) = some row := h
  have h3 := @List.find?_some _ (fun r => r.system == sys && r.code == x) row l h2
  have hmem : row ∈ l.filter fun r => r.system == sys && r.code == x :=
    List.mem_filter.mpr ⟨List.mem_of_find?_eq_some h2, h3⟩
  have : 0 < (l.filter fun r => r.system == sys && r.code == x).length :=
    List.length_pos.mpr fun hnil => by rw [hnil] at hmem; cases hmem
  exact this

theorem countP_append (l s : List CodeSystemPropertyRow) (sys : Nat) (x : String) :
    countP (l ++ s) sys x = countP l sys x + countP s sys x := by
  simp [countP, List.filter_append]

theorem mem_insertCodingPropertyIgnore (l : List CodingPropertyRow)
    (row r : CodingPropertyRow) (h : r ∈ insertCodingPropertyIgnore l row) :
    r ∈ l ∨ r = row := by
  unfold insertCodingPropertyIgnore at h
  split at h
  · exact Or.inl h
  · rcases List.mem_append.mp h with h2 | h2
    · exact Or.inl h2
    · exact Or.inr (by simpa using h2)

theorem buildRow_coding (cs : CodeSystem) (dr : Database) (cid propId : Nat)
    (isRel : Bool) (p : ImportedProperty) :
    (buildRow cs dr cid propId isRel p).coding = cid := by
  unfold buildRow
  split
  · split <;> rfl
  · rfl

theorem buildRow_property (cs : CodeSystem) (dr : Database) (cid propId : Nat)
    (isRel : Bool) (p : ImportedProperty) :
    (buildRow cs dr cid propId isRel p).property = propId := by
  unfold buildRow; split
  · split <;> rfl
  · rfl

theorem buildRow_value (cs : CodeSystem) (dr : Database) (cid propId : Nat)
    (isRel : Bool) (p : ImportedProperty) :
    (buildRow cs dr cid propId isRel p).value = p.value := by
  unfold buildRow; split
  · split <;> rfl
  · rfl

theorem buildRow_target_rel (cs : CodeSystem) (dr : Database) (cid propId : Nat)
    (p : ImportedProperty) :
    (buildRow cs dr cid propId true p).target = tgtOf cs dr p := by
  unfold buildRow tgtOf
  simp only [if_true]
  split <;> rfl

theorem tgtOf_congr (cs : CodeSystem) (d F : Database) (p : ImportedProperty)
    (h : F.codings = d.codings) : tgtOf cs F p = tgtOf cs d p := by
  unfold tgtOf
  rw [h]

theorem tgtOf_value_congr (cs : CodeSystem) (F : Database) (p q : ImportedProperty)
    (h : p.value = q.value) : tgtOf cs F p = tgtOf cs F q := by
  unfold tgtOf
  rw [h]

theorem cacheLookup_nil (k : String) : cacheLookup ([] : Cache) k = none := rfl

theorem find?_congr2 {α : Type} (l : List α) (p q : α → Bool) (h : ∀ a, p a = q a) :
    l.find? p = l.find? q := by
  induction l with
  | nil => rfl
  | cons a t ih =>
    simp only [List.find?]
    rw [h a, ih]

theorem cacheInsert_key_preserved (k : String) (e : CacheEntry)
    (kv : String × CacheEntry) :
    ((if (kv.1 == k) = true then (k, e) else kv) : String × CacheEntry).1 = kv.1 := by
  split
  · rename_i hk
    have : kv.1 = k := by simpa using hk
    rw [this]
  · rfl

theorem cacheLookup_cons (kv : String × CacheEntry) (rest : Cache) (k2 : String) :
    cacheLookup (kv :: rest) k2 =
      if (kv.1 == k2) = true then some kv.2 else cacheLookup rest k2 := by
  unfold cacheLookup
  simp only [List.find?]
  cases h : (kv.1 == k2) with
  | true => simp
  | false => simp

theorem beq_string_comm (a b : String) : (a == b) = (b == a) := by
  by_cases h : a = b
  · simp [h]
  · have h2 : ¬ b = a := fun h3 => h h3.symm
    simp [h, h2]

theorem cacheLookup_cacheInsert (c : Cache) (k k2 : String) (e : CacheEntry) :
    cacheLookup (cacheInsert c k e) k2 =
      if (k2 == k) = true then some e else cacheLookup c k2 := by
  induction c with
  | nil =>
    show cacheLookup [(k, e)] k2 = _
    rw [cacheLookup_cons]
    rw [show ((k, e) : String × CacheEntry).1 = k from rfl,
      show ((k, e) : String × CacheEntry).2 = e from rfl, beq_string_comm k k2]
  | cons kv rest ih =>
    show cacheLookup (if (kv.1 == k) = true then (k, e) :: rest
      else kv :: cacheInsert rest k e) k2 = _
    by_cases hkv : (kv.1 == k) = true
    · rw [if_pos hkv, cacheLookup_cons]
      rw [show ((k, e) : String × CacheEntry).1 = k from rfl,
        show ((k, e) : String × CacheEntry).2 = e from rfl, beq_string_comm k k2]
      by_cases hk : (k2 == k) = true
      · rw [if_pos hk, if_pos hk]
      · rw [if_neg hk, if_neg hk, cacheLookup_cons]
        have hne : (kv.1 == k2) = false := by
          have h1 : kv.1 = k := by simpa using hkv
          have h2 : ¬ k2 = k := fun h3 => hk (by simp [h3])
          rw [h1]
          simp only [beq_eq_false_iff_ne, ne_eq]
          exact fun h3 => h2 h3.symm
        rw [hne]
        simp
    · rw [if_neg hkv, cacheLookup_cons, cacheLookup_cons]
      by_cases hkvk2 : (kv.1 == k2) = true
      · have hk : (k2 == k) = false := by
          have h1 : kv.1 = k2 := by simpa using hkvk2
          have h2 : ¬ kv.1 = k := fun h3 => hkv (by simp [h3])
          simp only [beq_eq_false_iff_ne, ne_eq]
          exact fun h3 => h2 (by rw [h1, h3])
        rw [hkvk2, if_neg (not_eq_true_of_eq_false hk)]
        simp
      · have hf := bool_eq_false hkvk2
        rw [hf, ih]
        simp

theorem cacheConsistent_nil (cs : CodeSystem) (d : Database) :
    cacheConsistent cs d [] := by
  intro code e h
  rw [cacheLookup_nil] at h
  exact Option.noConfusion h

theorem cacheConsistent_extend (cs : CodeSystem) (d d2 : Database) (c : Cache)
    (hcc : cacheConsistent cs d c) (hs : ∃ s, d2.csProps = d.csProps ++ s) :
    cacheConsistent cs d2 c := by
  intro code e h
  obtain ⟨h1, row, hfind, hid⟩ := hcc code e h
  refine ⟨h1, row, ?_, hid⟩
  obtain ⟨s, hs2⟩ := hs
  rw [hs2]
  exact findCsProp_append_some _ _ _ _ _ hfind

theorem cacheConsistent_insert (cs : CodeSystem) (d2 : Database) (c : Cache)
    (hcc : cacheConsistent cs d2 c) (q : String) (i : Nat) (r : Bool)
    (hpd : ∃ pd, resolvePure cs q = .ok pd ∧ r = (pd.type == "code"))
    (hrow : ∃ row, findCsProp d2.csProps cs.id q = some row ∧ row.id = i) :
    cacheConsistent cs d2 (cacheInsert c (cs.url ++ "|" ++ q) ⟨i, r⟩) := by
  intro code e h
  rw [cacheLookup_cacheInsert] at h
  by_cases hk : ((cs.url ++ "|" ++ code) == (cs.url ++ "|" ++ q)) = true
  · rw [if_pos hk] at h
    have he : (⟨i, r⟩ : CacheEntry) = e := by simpa using h
    have hcq : code = q := by
      have heq : (cs.url ++ "|" ++ code) = (cs.url ++ "|" ++ q) := by simpa using hk
      exact string_append_left_cancel _ _ _ heq
    subst hcq
    subst he
    obtain ⟨pd, hp1, hp2⟩ := hpd
    obtain ⟨row, hr1, hr2⟩ := hrow
    exact ⟨⟨pd, hp1, hp2⟩, row, hr1, hr2⟩
  · rw [if_neg hk] at h
    exact hcc code e h

theorem cacheConsistent_step (cs : CodeSystem) (d : Database) (c : Cache)
    (p : ImportedProperty) (d1 : Database) (c1 : Cache)
    (hcc : cacheConsistent cs d c)
    (h : processProperty cs d c p = .ok (d1, c1)) : cacheConsistent cs d1 c1 := by
  obtain ⟨propId, isRel, dr, hz, hrc, hd1⟩ := processProperty_ok_inv cs d c p d1 c1 h
  have hd1cs : d1.csProps = dr.csProps := by rw [hd1]
  rcases resolveCached_ok cs d c p.property propId isRel dr c1 hrc with
    ⟨hl, hnz, hdr, hc1⟩ | ⟨hbr, hrp, hc1⟩
  · have hok : cacheConsistent cs d1 c :=
      cacheConsistent_extend cs d d1 c hcc ⟨[], by rw [hd1cs, hdr]; simp⟩
    rw [hc1]
    exact hok
  · obtain ⟨pd, hpure, hrel, hcase⟩ := resolveProperty_ok cs p.property d propId isRel dr hrp
    have hcc2 : cacheConsistent cs d1 c := by
      apply cacheConsistent_extend cs d d1 c hcc
      rcases hcase with ⟨row, hf, hi, hdr⟩ | ⟨hf, hi, hdr⟩
      · exact ⟨[], by rw [hd1cs, hdr]; simp⟩
      · exact ⟨[⟨d.nextId, cs.id, p.property, pd.type, pd.uri, pd.description⟩],
          by rw [hd1cs, hdr]⟩
    rw [hc1]
    apply cacheConsistent_insert cs d1 c hcc2 p.property propId isRel ⟨pd, hpure, hrel⟩
    rcases hcase with ⟨row, hf, hi, hdr⟩ | ⟨hf, hi, hdr⟩
    · refine ⟨row, ?_, hi.symm⟩
      rw [hd1cs, hdr]
      exact hf
    · refine ⟨⟨d.nextId, cs.id, p.property, pd.type, pd.uri, pd.description⟩, ?_, hi.symm⟩
      rw [hd1cs, hdr]
      show findCsProp (d.csProps ++
        [⟨d.nextId, cs.id, p.property, pd.type, pd.uri, pd.description⟩])
        cs.id p.property = _
      rw [findCsProp_append_none _ _ _ _ hf]
      exact findCsProp_self _ _ _ _ rfl rfl

theorem processProperty_state_cases (cs : CodeSystem) (d : Database) (c : Cache)
    (p : ImportedProperty) (d1 : Database) (c1 : Cache)
    (h : processProperty cs d c p = .ok (d1, c1)) :
    (d1.codings = d.codings ∧ d1.csProps = d.csProps ∧ d1.nextId = d.nextId) ∨
    (d1.codings = d.codings ∧ findCsProp d.csProps cs.id p.property = none ∧
     ∃ pd, resolvePure cs p.property = .ok pd ∧
       d1.csProps = d.csProps ++
         [⟨d.nextId, cs.id, p.property, pd.type, pd.uri, pd.description⟩] ∧
       d1.nextId = d.nextId + 1) := by
  obtain ⟨propId, isRel, dr, hz, hrc, hd1⟩ := processProperty_ok_inv cs d c p d1 c1 h
  have e1 : d1.codings = dr.codings := by rw [hd1]
  have e2 : d1.csProps = dr.csProps := by rw [hd1]
  have e3 : d1.nextId = dr.nextId := by rw [hd1]
  rcases resolveCached_ok cs d c p.property propId isRel dr c1 hrc with
    ⟨_, _, hdr, _⟩ | ⟨_, hrp, _⟩
  · subst hdr
    exact Or.inl ⟨e1, e2, e3⟩
  · obtain ⟨pd, hpure, hrel, hcase⟩ := resolveProperty_ok cs p.property d propId isRel dr hrp
    rcases hcase with ⟨row, hf, hi, hdr⟩ | ⟨hf, hi, hdr⟩
    · subst hdr
      exact Or.inl ⟨e1, e2, e3⟩
    · subst hdr
      exact Or.inr ⟨e1, hf, pd, hpure, e2, e3⟩

theorem DbInv_congr (d d2 : Database) (h1 : d2.codings = d.codings)
    (h2 : d2.csProps = d.csProps) (h3 : d2.nextId = d.nextId) (h : DbInv d) :
    DbInv d2 := by
  unfold DbInv at h ⊢
  obtain ⟨a, b, c2, e⟩ := h
  refine ⟨?_, ?_, ?_, ?_⟩
  · rw [h3]; exact a
  · rw [h1, h3]; exact b
  · rw [h2, h3]; exact c2
  · rw [h2]; exact e

theorem DbInv_upsertCoding (cs : CodeSystem) (c : Concept) (d : Database)
    (h : DbInv d) : DbInv (upsertCoding cs c d) := by
  unfold DbInv at h
  obtain ⟨h1, h2, h3, h4⟩ := h
  unfold upsertCoding DbInv
  split
  · refine ⟨h1, ?_, h3, h4⟩
    intro r hr
    obtain ⟨r0, hr0, hrr⟩ := List.mem_map.mp hr
    rw [← hrr, mergeRow_id]
    exact h2 r0 hr0
  · refine ⟨by show 1 ≤ d.nextId + 1; omega, ?_, ?_, h4⟩
    · intro r hr
      rcases List.mem_append.mp hr with hr2 | hr2
      · have := h2 r hr2
        show 1 ≤ r.id ∧ r.id < d.nextId + 1
        omega
      · have hre : r = ⟨d.nextId, cs.id, c.code, c.display⟩ := by simpa using hr2
        rw [hre]
        show 1 ≤ d.nextId ∧ d.nextId < d.nextId + 1
        omega
    · intro r hr
      have := h3 r hr
      show r.id < d.nextId + 1
      omega

theorem DbInv_applyConcepts (cs : CodeSystem) (B : List Concept) (d : Database)
    (h : DbInv d) : DbInv (applyConcepts cs B d) := by
  induction B generalizing d with
  | nil => exact h
  | cons c rest ih =>
    rw [applyConcepts_cons]
    exact ih _ (DbInv_upsertCoding cs c d h)

theorem DbInv_processProperty (cs : CodeSystem) (d : Database) (c : Cache)
    (p : ImportedProperty) (d1 : Database) (c1 : Cache)
    (h : processProperty cs d c p = .ok (d1, c1)) (hinv : DbInv d) : DbInv d1 := by
  rcases processProperty_state_cases cs d c p d1 c1 h with
    ⟨e1, e2, e3⟩ | ⟨e1, hf, pd, hpure, e2, e3⟩
  · exact DbInv_congr d d1 e1 e2 e3 hinv
  · unfold DbInv at hinv
    obtain ⟨h1, h2, h3, h4⟩ := hinv
    unfold DbInv
    rw [e1, e2, e3]
    refine ⟨by omega, ?_, ?_, ?_⟩
    · intro r hr
      have := h2 r hr
      omega
    · intro r hr
      rcases List.mem_append.mp hr with hr2 | hr2
      · have := h3 r hr2
        omega
      · have hre : r = ⟨d.nextId, cs.id, p.property, pd.type, pd.uri, pd.description⟩ := by
          simpa using hr2
        rw [hre]
        show d.nextId < d.nextId + 1
        omega
    · rw [List.pairwise_append]
      refine ⟨h4, by simp, ?_⟩
      intro a ha b hb
      have hid := h3 a ha
      have hbe : b = ⟨d.nextId, cs.id, p.property, pd.type, pd.uri, pd.description⟩ := by
        simpa using hb
      rw [hbe]
      show a.id ≠ d.nextId
      omega

theorem DbInv_processPropertiesAux (cs : CodeSystem) (props : List ImportedProperty)
    (d : Database) (c : Cache) (F : Database)
    (h : processPropertiesAux cs props d c = .ok F) (hinv : DbInv d) : DbInv F := by
  induction props generalizing d c with
  | nil =>
    rw [processPropertiesAux_nil] at h
    have hd : d = F := by simpa using h
    rw [← hd]
    exact hinv
  | cons p rest ih =>
    rw [processPropertiesAux_cons] at h
    cases hstep : processProperty cs d c p with
    | error e => rw [hstep] at h; simp at h
    | ok pair =>
      obtain ⟨d1, c1⟩ := pair
      rw [hstep] at h
      simp only [] at h
      exact ih d1 c1 h (DbInv_processProperty cs d c p d1 c1 hstep hinv)

theorem DbInv_importPending (cs : CodeSystem) (co : Option (List Concept))
    (pr : Option (List ImportedProperty)) (d F : Database)
    (h : importPending cs co pr d = .ok F) (hinv : DbInv d) : DbInv F := by
  unfold importPending at h
  by_cases hB : ((co.getD []).isEmpty : Bool) = true
  · rw [if_pos hB] at h
    by_cases hP : ((pr.getD []).isEmpty : Bool) = true
    · rw [if_pos hP] at h
      have hd : d = F := by simpa using h
      rw [← hd]
      exact hinv
    · rw [if_neg hP] at h
      exact DbInv_processPropertiesAux cs (pr.getD []) d [] F h hinv
  · rw [if_neg hB] at h
    by_cases hP : ((pr.getD []).isEmpty : Bool) = true
    · rw [if_pos hP] at h
      have hd : applyConcepts cs (co.getD []) d = F := by simpa using h
      rw [← hd]
      exact DbInv_applyConcepts cs (co.getD []) d hinv
    · rw [if_neg hP] at h
      exact DbInv_processPropertiesAux cs (pr.getD []) _ [] F h
        (DbInv_applyConcepts cs (co.getD []) d hinv)

theorem insertCodingPropertyIgnore_cases (l : List CodingPropertyRow)
    (row : CodingPropertyRow) :
    ((∃ r ∈ l, tripleMatches r row = true) ∧ insertCodingPropertyIgnore l row = l) ∨
    insertCodingPropertyIgnore l row = l ++ [row] := by
  unfold insertCodingPropertyIgnore
  split
  · rename_i hany
    exact Or.inl ⟨List.any_eq_true.mp hany, rfl⟩
  · exact Or.inr rfl

theorem expRow_coding (cs : CodeSystem) (F : Database) (p : ImportedProperty) :
    (expRow cs F p).coding = cidOf cs F p := rfl

theorem expRow_property (cs : CodeSystem) (F : Database) (p : ImportedProperty) :
    (expRow cs F p).property = pidOf cs F p := rfl

theorem expRow_value (cs : CodeSystem) (F : Database) (p : ImportedProperty) :
    (expRow cs F p).value = p.value := rfl

theorem expRow_target (cs : CodeSystem) (F : Database) (p : ImportedProperty) :
    (expRow cs F p).target = tgtOf cs F p := rfl

theorem pidOf_eq (cs : CodeSystem) (F : Database) (p : ImportedProperty)
    (r0 : CodeSystemPropertyRow)
    (h : findCsProp F.csProps cs.id p.property = some r0) : pidOf cs F p = r0.id := by
  unfold pidOf
  rw [h]
  rfl

theorem processProperty_row (cs : CodeSystem) (d : Database) (c : Cache)
    (p : ImportedProperty) (d1 : Database) (c1 : Cache) (F : Database)
    (hcc : cacheConsistent cs d c)
    (h : processProperty cs d c p = .ok (d1, c1))
    (hFc : F.codings = d.codings)
    (hFp : ∃ s, F.csProps = d1.csProps ++ s) :
    ∃ row pd r0,
      resolvePure cs p.property = .ok pd ∧
      findCsProp F.csProps cs.id p.property = some r0 ∧
      row.coding = cidOf cs F p ∧
      row.property = r0.id ∧
      row.value = p.value ∧
      (pd.type = "code" → row.target = tgtOf cs F p) ∧
      d1.codingProps = insertCodingPropertyIgnore d.codingProps row := by
  obtain ⟨propId, isRel, dr, hz, hrc, hd1⟩ := processProperty_ok_inv cs d c p d1 c1 h
  obtain ⟨hr1, _, hr3⟩ := resolveCached_state cs d c p.property propId isRel dr c1 hrc
  have hd1cs : d1.csProps = dr.csProps := by rw [hd1]
  have hd1cp : d1.codingProps = insertCodingPropertyIgnore dr.codingProps
      (buildRow cs dr ((lookupCodingId d.codings cs.id p.code).getD 0)
        propId isRel p) := by rw [hd1]
  have hmain : ∃ pd r0, resolvePure cs p.property = .ok pd ∧
      isRel = (pd.type == "code") ∧
      findCsProp F.csProps cs.id p.property = some r0 ∧ r0.id = propId := by
    rcases resolveCached_ok cs d c p.property propId isRel dr c1 hrc with
      ⟨hl, hnz, hdr, hc1⟩ | ⟨hbr, hrp, hc1⟩
    · obtain ⟨⟨pd, hp1, hp2⟩, row, hrf, hri⟩ := hcc p.property ⟨propId, isRel⟩ hl
      refine ⟨pd, row, hp1, hp2, ?_, hri⟩
      obtain ⟨s, hs⟩ := hFp
      rw [hs, hd1cs, hdr]
      exact findCsProp_append_some _ _ _ _ _ hrf
    · obtain ⟨pd, hpure, hrel, hcase⟩ := resolveProperty_ok cs p.property d propId isRel dr hrp
      rcases hcase with ⟨row, hf, hi, hdr⟩ | ⟨hf, hi, hdr⟩
      · refine ⟨pd, row, hpure, hrel, ?_, hi.symm⟩
        obtain ⟨s, hs⟩ := hFp
        rw [hs, hd1cs, hdr]
        exact findCsProp_append_some _ _ _ _ _ hf
      · refine ⟨pd, ⟨d.nextId, cs.id, p.property, pd.type, pd.uri, pd.description⟩,
          hpure, hrel, ?_, hi.symm⟩
        obtain ⟨s, hs⟩ := hFp
        rw [hs, hd1cs, hdr]
        show findCsProp ((d.csProps ++
          [⟨d.nextId, cs.id, p.property, pd.type, pd.uri, pd.description⟩]) ++ s)
          cs.id p.property = _
        rw [List.append_assoc, findCsProp_append_none _ _ _ _ hf]
        exact findCsProp_self _ _ _ _ rfl rfl
  obtain ⟨pd, r0, hpure, hrel, hfF, hr0id⟩ := hmain
  refine ⟨buildRow cs dr ((lookupCodingId d.codings cs.id p.code).getD 0) propId isRel p,
    pd, r0, hpure, hfF, ?_, ?_, ?_, ?_, ?_⟩
  · rw [buildRow_coding]
    unfold cidOf
    rw [hFc]
  · rw [buildRow_property, hr0id]
  · exact buildRow_value cs dr _ propId isRel p
  · intro htype
    have hisRel : isRel = true := by rw [hrel, htype]; simp
    rw [hisRel, buildRow_target_rel]
    exact (tgtOf_congr cs dr F p (by rw [hFc, hr1])).symm
  · rw [hd1cp, hr3]

theorem aux_find (cs : CodeSystem) (props : List ImportedProperty) (d : Database)
    (c : Cache) (F : Database) (hcc : cacheConsistent cs d c)
    (h : processPropertiesAux cs props d c = .ok F) :
    ∀ p ∈ props, ∃ r0, findCsProp F.csProps cs.id p.property = some r0 := by
  induction props generalizing d c with
  | nil => intro p hp; cases hp
  | cons p0 rest ih =>
    intro p hp
    rw [processPropertiesAux_cons] at h
    cases hstep : processProperty cs d c p0 with
    | error e => rw [hstep] at h; simp at h
    | ok pair =>
      obtain ⟨d1, c1⟩ := pair
      rw [hstep] at h
      simp only [] at h
      rcases List.mem_cons.mp hp with hpe | hpe
      · subst hpe
        have hFm := processPropertiesAux_ok_mono cs rest d1 c1 F h
        obtain ⟨row, pd, r0, _, hfF, _⟩ := processProperty_row cs d c p d1 c1 F hcc hstep
          (by rw [hFm.1, (processProperty_mono cs d c p d1 c1 hstep).1]) hFm.2.1
        exact ⟨r0, hfF⟩
      · exact ih d1 c1 (cacheConsistent_step cs d c p0 d1 c1 hcc hstep) h p hpe

theorem aux_rel_row (cs : CodeSystem) (props : List ImportedProperty) (d : Database)
    (c : Cache) (F : Database) (hcc : cacheConsistent cs d c)
    (h : processPropertiesAux cs props d c = .ok F)
    (hwfF : F.csProps.Pairwise (fun a b => a.id ≠ b.id)) :
    ∀ p ∈ props, ∀ pd, resolvePure cs p.property = .ok pd → pd.type = "code" →
      (expRow cs F p ∈ F.codingProps ∨
       ∃ r ∈ d.codingProps, tripleMatches r (expRow cs F p) = true) := by
  induction props generalizing d c with
  | nil => intro p hp; cases hp
  | cons p0 rest ih =>
    intro p hp pd hres hrel
    rw [processPropertiesAux_cons] at h
    cases hstep : processProperty cs d c p0 with
    | error e => rw [hstep] at h; simp at h
    | ok pair =>
      obtain ⟨d1, c1⟩ := pair
      rw [hstep] at h
      simp only [] at h
      have hFm := processPropertiesAux_ok_mono cs rest d1 c1 F h
      have hstepm := processProperty_mono cs d c p0 d1 c1 hstep
      obtain ⟨row0, pd0, r00, hpure0, hfF0, hcod0, hprop0, hval0, htgt0, hins0⟩ :=
        processProperty_row cs d c p0 d1 c1 F hcc hstep
          (by rw [hFm.1, hstepm.1]) hFm.2.1
      rcases List.mem_cons.mp hp with hpe | hpe
      · subst hpe
        have heqpd : pd0 = pd := by
          rw [hres] at hpure0
          exact (by simpa using hpure0 : pd = pd0).symm
        have hrow0 : row0 = expRow cs F p := by
          apply codingPropertyRow_ext
          · rw [hcod0, expRow_coding]
          · rw [hprop0, ← pidOf_eq cs F p r00 hfF0, expRow_property]
          · rw [hval0, expRow_value]
          · rw [htgt0 (by rw [heqpd]; exact hrel), expRow_target]
        rcases insertCodingPropertyIgnore_cases d.codingProps row0 with
          ⟨⟨r, hr, hm⟩, hins⟩ | hins
        · right
          rw [← hrow0]
          exact ⟨r, hr, hm⟩
        · left
          rw [← hrow0]
          obtain ⟨s2, hs2⟩ := hFm.2.2
          rw [hs2, hins0, hins]
          exact List.mem_append_left _ (List.mem_append_right _ (List.mem_cons_self _ _))
      · have hcc1 := cacheConsistent_step cs d c p0 d1 c1 hcc hstep
        rcases ih d1 c1 hcc1 h p hpe pd hres hrel with hleft | ⟨r, hr, hm⟩
        · exact Or.inl hleft
        · rw [hins0] at hr
          rcases mem_insertCodingPropertyIgnore d.codingProps row0 r hr with hr2 | hr2



          · exact Or.inr ⟨r, hr2, hm⟩
          · subst hr2
            left
            obtain ⟨r0p, hfp⟩ := aux_find cs rest d1 c1 F hcc1 h p hpe
            rw [tripleMatches_iff] at hm
            obtain ⟨hm1, hm2, hm3⟩ := hm
            by_cases hqp : p0.property = p.property
            · have heqpd : pd0 = pd := by
                rw [hqp, hres] at hpure0
                exact (by simpa using hpure0 : pd = pd0).symm
              have hrow0 : r = expRow cs F p := by
                apply codingPropertyRow_ext
                · exact hm1
                · exact hm2
                · exact hm3
                · rw [htgt0 (by rw [heqpd]; exact hrel), expRow_target]
                  exact tgtOf_value_congr cs F p0 p (by rw [← hval0, hm3, expRow_value])
              rw [← hrow0]
              obtain ⟨s2, hs2⟩ := hFm.2.2
              rw [hs2]
              refine List.mem_append_left _ ?_
              rw [hins0]
              exact hr
            · exfalso
              have hid1 : r.property = r00.id := hprop0
              have hid2 : r.property = r0p.id := by
                rw [hm2]
                show pidOf cs F p = r0p.id
                exact pidOf_eq cs F p r0p hfp
              have hc00 : r00.code = p0.property := (findCsProp_fields _ _ _ _ hfF0).2
              have hc0p : r0p.code = p.property := (findCsProp_fields _ _ _ _ hfp).2
              have hne : r00 ≠ r0p := by
                intro hcontra
                rw [hcontra, hc0p] at hc00
                exact hqp hc00.symm
              have hidne : r00.id ≠ r0p.id := by
                refine List.Pairwise.forall ?_ hwfF
                  (findCsProp_mem _ _ _ _ hfF0) (findCsProp_mem _ _ _ _ hfp) hne
                intro a b hab
                exact fun h2 => hab h2.symm
              rw [hid1] at hid2
              exact hidne hid2

theorem aux_inserted (cs : CodeSystem) (props : List ImportedProperty) (d : Database)
    (c : Cache) (F : Database) (hcc : cacheConsistent cs d c)
    (h : processPropertiesAux cs props d c = .ok F) :
    ∀ r ∈ F.codingProps, r ∈ d.codingProps ∨
      ∃ q pdq r0q, q ∈ props ∧ resolvePure cs q.property = .ok pdq ∧
        findCsProp F.csProps cs.id q.property = some r0q ∧
        r.property = r0q.id ∧ r.value = q.value ∧
        (pdq.type = "code" → r.target = tgtOf cs F q) := by
  induction props generalizing d c with
  | nil =>
    rw [processPropertiesAux_nil] at h
    have hd : d = F := by simpa using h
    subst hd
    exact fun r hr => Or.inl hr
  | cons p0 rest ih =>
    intro r hr
    rw [processPropertiesAux_cons] at h
    cases hstep : processProperty cs d c p0 with
    | error e => rw [hstep] at h; simp at h
    | ok pair =>
      obtain ⟨d1, c1⟩ := pair
      rw [hstep] at h
      simp only [] at h
      have hFm := processPropertiesAux_ok_mono cs rest d1 c1 F h
      have hstepm := processProperty_mono cs d c p0 d1 c1 hstep
      obtain ⟨row0, pd0, r00, hpure0, hfF0, hcod0, hprop0, hval0, htgt0, hins0⟩ :=
        processProperty_row cs d c p0 d1 c1 F hcc hstep
          (by rw [hFm.1, hstepm.1]) hFm.2.1
      have hcc1 := cacheConsistent_step cs d c p0 d1 c1 hcc hstep
      rcases ih d1 c1 hcc1 h r hr with hr1 | ⟨q, pdq, r0q, hq, hrest⟩
      · rw [hins0] at hr1
        rcases mem_insertCodingPropertyIgnore d.codingProps row0 r hr1 with hr2 | hr2
        · exact Or.inl hr2
        · subst hr2
          exact Or.inr ⟨p0, pd0, r00, List.mem_cons_self _ _, hpure0, hfF0,
            hprop0, hval0, htgt0⟩
      · exact Or.inr ⟨q, pdq, r0q, List.mem_cons_of_mem _ hq, hrest⟩

theorem countP_processProperty (cs : CodeSystem) (d : Database) (c : Cache)
    (p : ImportedProperty) (d1 : Database) (c1 : Cache)
    (h : processProperty cs d c p = .ok (d1, c1)) (sys : Nat) (x : String)
    (hle : countP d.csProps sys x ≤ 1) :
    countP d1.csProps sys x ≤ 1 ∧ countP d.csProps sys x ≤ countP d1.csProps sys x := by
  rcases processProperty_state_cases cs d c p d1 c1 h with
    ⟨_, h2, _⟩ | ⟨_, hf, pd, _, h2, _⟩
  · rw [h2]
    exact ⟨hle, Nat.le_refl _⟩
  · rw [h2, countP_append]
    by_cases hm : (((⟨d.nextId, cs.id, p.property, pd.type, pd.uri, pd.description⟩ :
        CodeSystemPropertyRow).system == sys) &&
        ((⟨d.nextId, cs.id, p.property, pd.type, pd.uri, pd.description⟩ :
        CodeSystemPropertyRow).code == x)) = true
    · have hsx : cs.id = sys ∧ p.property = x := by
        simpa using hm
      obtain ⟨hsys, hx⟩ := hsx
      subst hsys
      subst hx
      have h0 : countP d.csProps cs.id p.property = 0 := (findCsProp_none_iff _ _ _).mp hf
      have h1 : countP [(⟨d.nextId, cs.id, p.property, pd.type, pd.uri, pd.description⟩ :
          CodeSystemPropertyRow)] cs.id p.property = 1 := by
        simp [countP, List.filter]
      rw [h0, h1]
      omega
    · have hm0 : countP [(⟨d.nextId, cs.id, p.property, pd.type, pd.uri, pd.description⟩ :
          CodeSystemPropertyRow)] sys x = 0 := by
        have hf2 := bool_eq_false hm
        simp only [countP, List.filter, hf2]
        rfl
      rw [hm0]
      omega

theorem countP_processPropertiesAux (cs : CodeSystem) (props : List ImportedProperty)
    (d : Database) (c : Cache) (F : Database)
    (h : processPropertiesAux cs props d c = .ok F) (sys : Nat) (x : String)
    (hle : countP d.csProps sys x ≤ 1) :
    countP F.csProps sys x ≤ 1 ∧ countP d.csProps sys x ≤ countP F.csProps sys x := by
  induction props generalizing d c with
  | nil =>
    rw [processPropertiesAux_nil] at h
    have hd : d = F := by simpa using h
    subst hd
    exact ⟨hle, Nat.le_refl _⟩
  | cons p0 rest ih =>
    rw [processPropertiesAux_cons] at h
    cases hstep : processProperty cs d c p0 with
    | error e => rw [hstep] at h; simp at h
    | ok pair =>
      obtain ⟨d1, c1⟩ := pair
      rw [hstep] at h
      simp only [] at h
      obtain ⟨ha, hb⟩ := countP_processProperty cs d c p0 d1 c1 hstep sys x hle
      obtain ⟨hc2, hd2⟩ := ih d1 c1 h ha
      exact ⟨hc2, Nat.le_trans hb hd2⟩

/-
Lemma layer IV: orchestrator equations, a master lemma describing the
relationship rows of one successful import, and the permutation view of
the concept writer.
-/

theorem importCodeSystem_ok (cs : CodeSystem) (co : Option (List Concept))
    (pr : Option (List ImportedProperty)) (s : Session) (d2 : Database)
    (h : importPending cs co pr s.committed = .ok d2) :
    importCodeSystem cs co pr s = (⟨d2, d2⟩, none) := by
  simp only [importCodeSystem, beginTx]
  rw [h]
  rfl

theorem importCodeSystem_err (cs : CodeSystem) (co : Option (List Concept))
    (pr : Option (List ImportedProperty)) (s : Session) (e : String)
    (h : importPending cs co pr s.committed = .error e) :
    importCodeSystem cs co pr s = (⟨s.committed, s.committed⟩, some e) := by
  simp only [importCodeSystem, beginTx]
  rw [h]

theorem importPending_props (cs : CodeSystem) (co : Option (List Concept))
    (props : List ImportedProperty) (d F : Database) (hP : props ≠ [])
    (h : importPending cs co (some props) d = .ok F) :
    processPropertiesAux cs props
      (if ((co.getD []).isEmpty : Bool) = true then d
       else applyConcepts cs (co.getD []) d) [] = .ok F := by
  have hPb : (props.isEmpty : Bool) = false := by
    cases props with
    | nil => exact absurd rfl hP
    | cons a t => rfl
  unfold importPending at h
  simp only [Option.getD_some] at h
  rw [hPb] at h
  simp only [Bool.false_eq_true, if_false] at h
  exact h

theorem DbInv_pairwise {d : Database} (h : DbInv d) :
    d.csProps.Pairwise (fun a b => a.id ≠ b.id) := h.2.2.2

theorem DbInv_coding_id {d : Database} (h : DbInv d) {r : CodingRow}
    (hr : r ∈ d.codings) : 1 ≤ r.id := (h.2.1 r hr).1

theorem findCoding_of_contains (l : List CodingRow) (sys : Nat) (x : String)
    (h : containsCoding l sys x = true) : ∃ r, findCoding l sys x = some r := by
  cases hf : findCoding l sys x with
  | none =>
    have hf2 : l.find? (fun r => r.system == sys && r.code == x) = none := hf
    rw [List.find?_eq_none] at hf2
    obtain ⟨r, hr, hp⟩ := List.any_eq_true.mp h
    exact absurd hp (hf2 r hr)
  | some r => exact ⟨r, rfl⟩

theorem findCoding_mem (l : List CodingRow) (sys : Nat) (x : String)
    (r : CodingRow) (h : findCoding l sys x = some r) : r ∈ l :=
  List.mem_of_find?_eq_some h

theorem findCoding_fields (l : List CodingRow) (sys : Nat) (x : String)
    (r : CodingRow) (h : findCoding l sys x = some r) :
    r.system = sys ∧ r.code = x := by
  have h2 : l.find? (fun q => q.system == sys && q.code == x) = some r := h
  have h3 := @List.find?_some _ (fun q => q.system == sys && q.code == x) r l h2
  simpa using h3

theorem containsCoding_applyConcepts_mono (cs : CodeSystem) (B : List Concept)
    (d : Database) (x : String) (h : containsCoding d.codings cs.id x = true) :
    containsCoding (applyConcepts cs B d).codings cs.id x = true := by
  rw [applyConcepts_eq]
  show containsCoding ((extendL cs B d.codings d.nextId).1.map (writeBackRow cs B))
    cs.id x = true
  rw [containsCoding_map _ _ _ _ fun r =>
    ⟨writeBackRow_system cs B r, writeBackRow_code cs B r⟩]
  exact containsCoding_extendL_mono cs B d.codings d.nextId x h

theorem containsCoding_applyConcepts_inv (cs : CodeSystem) (B : List Concept)
    (d : Database) (x : String)
    (h : containsCoding (applyConcepts cs B d).codings cs.id x = true) :
    containsCoding d.codings cs.id x = true ∨ ∃ c ∈ B, c.code = x := by
  rw [applyConcepts_eq] at h
  have h2 : containsCoding (extendL cs B d.codings d.nextId).1 cs.id x = true := by
    rw [← containsCoding_map (extendL cs B d.codings d.nextId).1 cs.id x
      (writeBackRow cs B) (fun r => ⟨writeBackRow_system cs B r, writeBackRow_code cs B r⟩)]
    exact h
  obtain ⟨s, hs, hm⟩ := extendL_new cs B d.codings d.nextId
  rw [hs, containsCoding_append] at h2
  cases hq : containsCoding d.codings cs.id x with
  | true => exact Or.inl rfl
  | false =>
    rw [hq] at h2
    simp only [Bool.false_or] at h2
    obtain ⟨r, hr, hpred⟩ := List.any_eq_true.mp h2
    obtain ⟨_, _, c2, hc2, hc3⟩ := hm r hr
    have hrx : r.code = x := by
      simp only [Bool.and_eq_true, beq_iff_eq] at hpred
      exact hpred.2
    exact Or.inr ⟨c2, hc2, by rw [hc3, hrx]⟩

theorem import_rel_rows (cs : CodeSystem) (concepts : List Concept)
    (props : List ImportedProperty) (db F : Database)
    (hinv : DbInv db)
    (hok : importPending cs (some concepts) (some props) db = .ok F)
    (p : ImportedProperty) (hp : p ∈ props) (pd : PropertyDef)
    (hres : resolvePure cs p.property = .ok pd) (hrel : pd.type = "code")
    (hpre : ∀ r ∈ db.codingProps, tripleMatches r (expRow cs F p) = false) :
    expRow cs F p ∈ F.codingProps ∧
    (∀ r ∈ F.codingProps, tripleMatches r (expRow cs F p) = true → r = expRow cs F p) ∧
    F.codings = (if (concepts.isEmpty : Bool) = true then db
      else applyConcepts cs concepts db).codings ∧
    DbInv (if (concepts.isEmpty : Bool) = true then db
      else applyConcepts cs concepts db) := by
  have hPne : props ≠ [] := fun hnil => by rw [hnil] at hp; cases hp
  have haux := importPending_props cs (some concepts) props db F hPne hok
  simp only [Option.getD_some] at haux
  have hAinv : DbInv (if (concepts.isEmpty : Bool) = true then db
      else applyConcepts cs concepts db) := by
    split
    · exact hinv
    · exact DbInv_applyConcepts cs concepts db hinv
  have hAcp : (if (concepts.isEmpty : Bool) = true then db
      else applyConcepts cs concepts db).codingProps = db.codingProps := by
    split
    · rfl
    · exact applyConcepts_codingProps cs concepts db
  have hFinv : DbInv F := DbInv_processPropertiesAux cs props _ [] F haux hAinv
  have hcc0 := cacheConsistent_nil cs (if (concepts.isEmpty : Bool) = true then db
    else applyConcepts cs concepts db)
  have hcod : F.codings = (if (concepts.isEmpty : Bool) = true then db
      else applyConcepts cs concepts db).codings :=
    (processPropertiesAux_ok_mono cs props _ [] F haux).1
  refine ⟨?_, ?_, hcod, hAinv⟩
  · rcases aux_rel_row cs props _ [] F hcc0 haux (DbInv_pairwise hFinv) p hp pd hres hrel
      with hl | ⟨r, hrmem, hm⟩
    · exact hl
    · exfalso
      rw [hAcp] at hrmem
      have hfalse := hpre r hrmem
      exact Bool.noConfusion (hfalse.symm.trans hm)
  · intro r hr hm
    rcases aux_inserted cs props _ [] F hcc0 haux r hr with
      hr1 | ⟨q, pdq, r0q, hq, hq1, hq2, hq3, hq4, hq5⟩
    · exfalso
      rw [hAcp] at hr1
      have hfalse := hpre r hr1
      exact Bool.noConfusion (hfalse.symm.trans hm)
    · rw [tripleMatches_iff] at hm
      obtain ⟨hm1, hm2, hm3⟩ := hm
      obtain ⟨r0p, hfp⟩ := aux_find cs props _ [] F hcc0 haux p hp
      by_cases hqp : q.property = p.property
      · have heqpd : pdq = pd := by
          rw [hqp, hres] at hq1
          exact (by simpa using hq1 : pd = pdq).symm
        apply codingPropertyRow_ext hm1 hm2 hm3
        rw [hq5 (by rw [heqpd]; exact hrel), expRow_target]
        exact tgtOf_value_congr cs F q p (by rw [← hq4, hm3, expRow_value])
      · exfalso
        have hid2 : r.property = r0p.id := by
          rw [hm2, expRow_property]
          exact pidOf_eq cs F p r0p hfp
        have hc0q : r0q.code = q.property := (findCsProp_fields _ _ _ _ hq2).2
        have hc0p : r0p.code = p.property := (findCsProp_fields _ _ _ _ hfp).2
        have hne : r0q ≠ r0p := by
          intro hcontra
          rw [hcontra, hc0p] at hc0q
          exact hqp hc0q.symm
        have hidne : r0q.id ≠ r0p.id := by
          refine List.Pairwise.forall ?_ (DbInv_pairwise hFinv)
            (findCsProp_mem _ _ _ _ hq2) (findCsProp_mem _ _ _ _ hfp) hne
          intro a b hab
          exact fun h2 => hab h2.symm
        rw [hq3] at hid2
        exact hidne hid2

theorem lastConcept_mem (B : List Concept) (x : String) (c : Concept)
    (h : lastConcept B x = some c) : c ∈ B ∧ c.code = x := by
  induction B with
  | nil => cases h
  | cons b rest ih =>
    unfold lastConcept at h
    cases h2 : lastConcept rest x with
    | some c2 =>
      rw [h2] at h
      have hc : c2 = c := by simpa using h
      subst hc
      obtain ⟨hm, hx⟩ := ih h2
      exact ⟨List.mem_cons_of_mem _ hm, hx⟩
    | none =>
      rw [h2] at h
      simp only [] at h
      by_cases hb : (b.code == x) = true
      · rw [if_pos hb] at h
        have hc : b = c := by simpa using h
        subst hc
        exact ⟨List.mem_cons_self _ _, by simpa using hb⟩
      · rw [if_neg hb] at h
        cases h

theorem lastConcept_none (B : List Concept) (x : String)
    (h : ∀ c ∈ B, c.code ≠ x) : lastConcept B x = none := by
  induction B with
  | nil => rfl
  | cons b rest ih =>
    unfold lastConcept
    rw [ih fun c hc => h c (List.mem_cons_of_mem _ hc)]
    have hb : (b.code == x) = false := by
      simp only [beq_eq_false_iff_ne, ne_eq]
      exact h b (List.mem_cons_self _ _)
    rw [hb]
    rfl

theorem lastConcept_of_mem (B : List Concept) (x : String) (c : Concept)
    (hdist : B.Pairwise (fun a b => a.code ≠ b.code))
    (hc : c ∈ B) (hx : c.code = x) : lastConcept B x = some c := by
  induction B with
  | nil => cases hc
  | cons b rest ih =>
    rcases List.mem_cons.mp hc with hce | hce
    · subst hce
      have hnone : lastConcept rest x = none := by
        apply lastConcept_none
        intro c2 hc2 hc2x
        have := (List.pairwise_cons.mp hdist).1 c2 hc2
        rw [hx, hc2x] at this
        exact this rfl
      unfold lastConcept
      rw [hnone]
      have hb : (c.code == x) = true := by simp [hx]
      rw [hb]
      rfl
    · have hsome := ih (List.pairwise_cons.mp hdist).2 hce
      unfold lastConcept
      rw [hsome]

theorem findCoding_map (l : List CodingRow) (sys : Nat) (x : String)
    (f : CodingRow → CodingRow)
    (hf : ∀ r, (f r).system = r.system ∧ (f r).code = r.code) :
    findCoding (l.map f) sys x = (findCoding l sys x).map f := by
  unfold findCoding
  rw [List.find?_map]
  apply congrArg
  apply find?_congr2
  intro r
  show ((f r).system == sys && (f r).code == x) = (r.system == sys && r.code == x)
  rw [(hf r).1, (hf r).2]

theorem resolvePure_error (cs : CodeSystem) (code : String) (e : String)
    (h : resolvePure cs code = .error e) : e = "Unknown property: " ++ code := by
  unfold resolvePure at h
  cases hf : (cs.property.getD []).find? (fun q => q.code == code) with
  | some q => rw [hf] at h; simp at h
  | none =>
    rw [hf] at h
    split at h
    · simp at h
    · split at h
      · simp at h
      · injection h with he
        exact he.symm

theorem resolveProperty_error (cs : CodeSystem) (code : String) (d : Database)
    (e : String) (h : resolveProperty cs code d = .error e) :
    e = "Unknown property: " ++ code := by
  unfold resolveProperty at h
  cases hp : resolvePure cs code with
  | error e2 =>
    rw [hp] at h
    have he : e2 = e := by simpa using h
    rw [← he]
    exact resolvePure_error cs code e2 hp
  | ok pd =>
    rw [hp] at h
    simp only [] at h
    cases hf : findCsProp d.csProps cs.id code with
    | some r => rw [hf] at h; simp at h
    | none => rw [hf] at h; simp at h

theorem resolveMiss_error (cs : CodeSystem) (d : Database) (c : Cache)
    (code key : String) (e : String) (h : resolveMiss cs d c code key = .error e) :
    e = "Unknown property: " ++ code := by
  unfold resolveMiss at h
  cases hp : resolveProperty cs code d with
  | error e2 =>
    rw [hp] at h
    have he : e2 = e := by simpa using h
    rw [← he]
    exact resolveProperty_error cs code d e2 hp
  | ok t =>
    obtain ⟨i, r, dd⟩ := t
    rw [hp] at h
    simp at h

theorem resolveCached_error (cs : CodeSystem) (d : Database) (c : Cache)
    (code : String) (e : String) (h : resolveCached cs d c code = .error e) :
    e = "Unknown property: " ++ code := by
  cases hl : cacheLookup c (cs.url ++ "|" ++ code) with
  | none =>
    rw [resolveCached_miss_none cs d c code hl] at h
    exact resolveMiss_error cs d c code _ e h
  | some e2 =>
    cases hz : (e2.id == 0) with
    | true =>
      rw [resolveCached_miss_zero cs d c code e2 hl hz] at h
      exact resolveMiss_error cs d c code _ e h
    | false =>
      rw [resolveCached_hit cs d c code e2 hl hz] at h
      simp at h

theorem lastConcept_none_inv (B : List Concept) (x : String)
    (h : lastConcept B x = none) : ∀ c ∈ B, c.code ≠ x := by
  induction B with
  | nil => intro c hc; cases hc
  | cons b rest ih =>
    intro c hc
    unfold lastConcept at h
    cases h2 : lastConcept rest x with
    | some c2 => rw [h2] at h; cases h
    | none =>
      rw [h2] at h
      simp only [] at h
      by_cases hb : (b.code == x) = true
      · rw [if_pos hb] at h; cases h
      · rcases List.mem_cons.mp hc with hce | hce
        · subst hce
          simpa using hb
        · exact ih h2 c hce

theorem conceptView_applyConcepts (cs : CodeSystem) (B : List Concept) (d : Database)
    (x : String) :
    conceptView (applyConcepts cs B d) cs.id x =
      (match lastConcept B x with
       | some c => some c.display
       | none => conceptView d cs.id x) := by
  unfold conceptView
  rw [applyConcepts_eq]
  show (findCoding ((extendL cs B d.codings d.nextId).1.map (writeBackRow cs B))
    cs.id x).map (fun r => r.display) = _
  rw [findCoding_map _ _ _ _ fun r =>
    ⟨writeBackRow_system cs B r, writeBackRow_code cs B r⟩]
  cases hlast : lastConcept B x with
  | some c =>
    obtain ⟨hm, hx⟩ := lastConcept_mem B x c hlast
    have hcont : containsCoding (extendL cs B d.codings d.nextId).1 cs.id x = true := by
      have hc2 := containsCoding_extendL_all cs B d.codings d.nextId c hm
      rw [hx] at hc2
      exact hc2
    obtain ⟨r, hr⟩ := findCoding_of_contains _ _ _ hcont
    rw [hr]
    obtain ⟨hrs, hrc⟩ := findCoding_fields _ _ _ _ hr
    show some (writeBackRow cs B r).display = some c.display
    unfold writeBackRow
    rw [if_pos (by simp [hrs]), hrc, hlast]
  | none =>
    obtain ⟨s, hs, hm2⟩ := extendL_new cs B d.codings d.nextId
    rw [hs]
    have hnotin : ∀ c ∈ B, c.code ≠ x := lastConcept_none_inv B x hlast
    have hsfind : findCoding s cs.id x = none := by
      unfold findCoding
      rw [List.find?_eq_none]
      intro r hr
      obtain ⟨_, _, c2, hc2, hc3⟩ := hm2 r hr
      simp only [Bool.and_eq_true, beq_iff_eq, not_and]
      intro _ hrx
      exact hnotin c2 hc2 (by rw [hc3, hrx])
    cases hf : findCoding d.codings cs.id x with
    | some r =>
      have happ : findCoding (d.codings ++ s) cs.id x = some r := by
        unfold findCoding at hf ⊢
        rw [List.find?_append, hf]
        rfl
      rw [happ]
      obtain ⟨hrs, hrc⟩ := findCoding_fields _ _ _ _ hf
      show some (writeBackRow cs B r).display = some r.display
      unfold writeBackRow
      rw [if_pos (by simp [hrs]), hrc, hlast]
    | none =>
      have happ : findCoding (d.codings ++ s) cs.id x = none := by
        unfold findCoding at hf hsfind ⊢
        rw [List.find?_append, hf, hsfind]
        rfl
      rw [happ]
      rfl

/-- The target column computed against a store whose Coding table holds a
row for the value: the target is that row id, provided the id is nonzero. -/
theorem tgtOf_some (cs : CodeSystem) (d : Database) (p : ImportedProperty)
    (rc : CodingRow) (hrc : findCoding d.codings cs.id p.value = some rc)
    (hid : 1 ≤ rc.id) : tgtOf cs d p = some rc.id := by
  have hl : (lookupCodingId d.codings cs.id p.value).getD 0 = rc.id := by
    unfold lookupCodingId
    rw [hrc]
    rfl
  have hz : (rc.id == 0) = false := by
    simp only [beq_eq_false_iff_ne, ne_eq]
    omega
  unfold tgtOf
  rw [hl]
  show (if (rc.id == 0) = true then none else some rc.id) = some rc.id
  rw [hz]
  simp

/-- A successful Coding lookup makes the containment test true. -/
theorem containsCoding_of_findCoding (l : List CodingRow) (sys : Nat) (x : String)
    (r : CodingRow) (h : findCoding l sys x = some r) : containsCoding l sys x = true := by
  have h2 : l.find? (fun q => q.system == sys && q.code == x) = some r := h
  have h3 := @List.find?_some _ (fun q => q.system == sys && q.code == x) r l h2
  exact List.any_eq_true.mpr ⟨r, List.mem_of_find?_eq_some h2, h3⟩

/-- A present target column implies a Coding row for the value exists. -/
theorem tgtOf_ne_none (cs : CodeSystem) (d : Database) (p : ImportedProperty)
    (h : tgtOf cs d p ≠ none) : ∃ rc, findCoding d.codings cs.id p.value = some rc := by
  cases hf : findCoding d.codings cs.id p.value with
  | some rc => exact ⟨rc, rfl⟩
  | none =>
    exfalso
    apply h
    unfold tgtOf lookupCodingId
    rw [hf]
    rfl

/-- When the batch codes are pairwise distinct, the winning concept for a
code is invariant under permutation of the batch. -/
theorem lastConcept_perm (B1 B2 : List Concept) (x : String) (hperm : B1.Perm B2)
    (hnodup : (B1.map (fun c => c.code)).Nodup) :
    lastConcept B1 x = lastConcept B2 x := by
  cases h1 : lastConcept B1 x with
  | some c =>
    obtain ⟨hm, hx⟩ := lastConcept_mem B1 x c h1
    have hm2 : c ∈ B2 := hperm.mem_iff.mp hm
    cases h2 : lastConcept B2 x with
    | none => exact absurd hx (lastConcept_none_inv B2 x h2 c hm2)
    | some c2 =>
      obtain ⟨hm2b, hx2⟩ := lastConcept_mem B2 x c2 h2
      have hm2c : c2 ∈ B1 := hperm.mem_iff.mpr hm2b
      have hcc : c = c2 := List.inj_on_of_nodup_map hnodup hm hm2c
        (show c.code = c2.code by rw [hx, hx2])
      rw [hcc]
  | none =>
    cases h2 : lastConcept B2 x with
    | some c2 =>
      obtain ⟨hm2b, hx2⟩ := lastConcept_mem B2 x c2 h2
      have hm2c : c2 ∈ B1 := hperm.mem_iff.mpr hm2b
      exact absurd hx2 (lastConcept_none_inv B1 x h1 c2 hm2c)
    | none => rfl

/-
The claims.
-/

/-- Claim C1: atomicity of a failed import.  Whenever importCodeSystem
reports a diagnostic, the committed store after the call equals the
committed store before the call, and no pending work survives: every table
is exactly as it was. -/
theorem claim_C1 (cs : CodeSystem) (co : Option (List Concept))
    (pr : Option (List ImportedProperty)) (s s2 : Session) (e : String)
    (h : importCodeSystem cs co pr s = (s2, some e)) :
    s2.committed = s.committed ∧ s2.pending = s.committed := by
  cases hip : importPending cs co pr s.committed with
  | ok d2 =>
    rw [importCodeSystem_ok cs co pr s d2 hip] at h
    have h2 : (none : Option String) = some e := congrArg Prod.snd h
    exact Option.noConfusion h2
  | error e2 =>
    rw [importCodeSystem_err cs co pr s e2 hip] at h
    have h1 : (⟨s.committed, s.committed⟩ : Session) = s2 := congrArg Prod.fst h
    exact ⟨by rw [← h1], by rw [← h1]⟩

/-- Witness for claim C1 at a failing concrete import: the property batch
names the unknown code X, the call fails, and the committed store is the
empty store it started from. -/
theorem claim_C1_witness :
    (⟨dbEmpty, dbEmpty⟩ : Session).committed = sessionEmpty.committed ∧
    (⟨dbEmpty, dbEmpty⟩ : Session).pending = sessionEmpty.committed :=
  claim_C1 csEx none (some [⟨"X", "parent", "A"⟩]) sessionEmpty
    ⟨dbEmpty, dbEmpty⟩ "Unknown code: http://ex/cs|X" rfl

/-- Claim C2: idempotence.  Running importCodeSystem twice in sequence with
the same CodeSystem and batch leaves the committed store of the second call
equal to the committed store of the first. -/
theorem claim_C2 (cs : CodeSystem) (co : Option (List Concept))
    (pr : Option (List ImportedProperty)) (s s1 s2 : Session)
    (r1 r2 : Option String)
    (h1 : importCodeSystem cs co pr s = (s1, r1))
    (h2 : importCodeSystem cs co pr s1 = (s2, r2)) :
    s2.committed = s1.committed := by
  cases hip : importPending cs co pr s.committed with
  | ok d2 =>
    rw [importCodeSystem_ok cs co pr s d2 hip] at h1
    have hs1 : (⟨d2, d2⟩ : Session) = s1 := congrArg Prod.fst h1
    subst hs1
    have hip2 : importPending cs co pr ((⟨d2, d2⟩ : Session)).committed = .ok d2 :=
      importPending_idem cs co pr s.committed d2 hip
    rw [importCodeSystem_ok cs co pr ⟨d2, d2⟩ d2 hip2] at h2
    have hs2 : (⟨d2, d2⟩ : Session) = s2 := congrArg Prod.fst h2
    rw [← hs2]
  | error e =>
    rw [importCodeSystem_err cs co pr s e hip] at h1
    have hs1 : (⟨s.committed, s.committed⟩ : Session) = s1 := congrArg Prod.fst h1
    subst hs1
    have hip2 : importPending cs co pr
        ((⟨s.committed, s.committed⟩ : Session)).committed = .error e := hip
    rw [importCodeSystem_err cs co pr ⟨s.committed, s.committed⟩ e hip2] at h2
    have hs2 : (⟨s.committed, s.committed⟩ : Session) = s2 := congrArg Prod.fst h2
    rw [← hs2]

/-- Witness for claim C2 at a concrete batch: importing concept A with the
property triple A, parent, X once and then again commits the same store. -/
theorem claim_C2_witness :
    (⟨dbFix1, dbFix1⟩ : Session).committed = (⟨dbFix1, dbFix1⟩ : Session).committed :=
  claim_C2 csEx (some [⟨"A", none⟩]) (some [⟨"A", "parent", "X"⟩]) sessionEmpty
    ⟨dbFix1, dbFix1⟩ ⟨dbFix1, dbFix1⟩ none none rfl rfl

/-- Counterexample to claim C3 as stated: importing concept A together with
the relationship triple B, parent, A into a store that already holds a
conflicting Coding_Property row with an unset target succeeds, the value A
names a concept of the batch, yet no row of the final store has a non-null
target: the insert ignores the conflict and the old row is kept without a
backfill. -/
theorem claim_C3_counterexample :
    importPending csEx (some [⟨"A", none⟩]) (some [⟨"B", "parent", "A"⟩]) dbPre
      = .ok dbPreF ∧
    resolvePure csEx "parent" = .ok ⟨"parent", some parentProperty, "code", none⟩ ∧
    findCoding dbPreF.codings csEx.id "A" = some ⟨3, 1, "A", none⟩ ∧
    (∀ r ∈ dbPreF.codingProps, r.target = none) :=
  ⟨rfl, rfl, rfl, by decide⟩

/-- Claim C3, amended: intra-batch linkage holds for relationship entries
whose triple does not conflict with a pre-existing Coding_Property row.
Under that proviso, a successful import of a batch containing the target
concept commits the expected row, whose target is the non-null id of the
Coding row for the value, regardless of where in the batch the target
concept appears. -/
theorem claim_C3 (cs : CodeSystem) (concepts : List Concept)
    (props : List ImportedProperty) (db F : Database) (hinv : DbInv db)
    (hok : importPending cs (some concepts) (some props) db = .ok F)
    (p : ImportedProperty) (hp : p ∈ props) (pd : PropertyDef)
    (hres : resolvePure cs p.property = .ok pd) (hrel : pd.type = "code")
    (c : Concept) (hc : c ∈ concepts) (hval : c.code = p.value)
    (hpre : ∀ r ∈ db.codingProps, tripleMatches r (expRow cs F p) = false) :
    ∃ rc, findCoding F.codings cs.id p.value = some rc ∧ 1 ≤ rc.id ∧
      expRow cs F p ∈ F.codingProps ∧ (expRow cs F p).target = some rc.id := by
  obtain ⟨hmem, huniq, hcod, hAinv⟩ :=
    import_rel_rows cs concepts props db F hinv hok p hp pd hres hrel hpre
  have hne : (concepts.isEmpty : Bool) = false := by
    cases concepts with
    | nil => cases hc
    | cons a t => rfl
  rw [hne] at hcod hAinv
  simp only [Bool.false_eq_true, if_false] at hcod hAinv
  have hcont : containsCoding (applyConcepts cs concepts db).codings cs.id p.value
      = true := by
    have h2 := containsCoding_applyConcepts_all cs concepts db c hc
    rw [hval] at h2
    exact h2
  rw [← hcod] at hcont
  obtain ⟨rc, hrc⟩ := findCoding_of_contains F.codings cs.id p.value hcont
  have hrcmem : rc ∈ (applyConcepts cs concepts db).codings := by
    rw [← hcod]
    exact findCoding_mem F.codings cs.id p.value rc hrc
  have hid : 1 ≤ rc.id := DbInv_coding_id hAinv hrcmem
  refine ⟨rc, hrc, hid, hmem, ?_⟩
  show tgtOf cs F p = some rc.id
  exact tgtOf_some cs F p rc hrc hid

/-- Witness for claim C3 at a concrete batch: concepts A then B with the
triple B, parent, A into the empty store give the linked row. -/
theorem claim_C3_witness :
    ∃ rc, findCoding dbS1.codings csEx.id "A" = some rc ∧ 1 ≤ rc.id ∧
      expRow csEx dbS1 ⟨"B", "parent", "A"⟩ ∈ dbS1.codingProps ∧
      (expRow csEx dbS1 ⟨"B", "parent", "A"⟩).target = some rc.id :=
  claim_C3 csEx [⟨"A", none⟩, ⟨"B", none⟩] [⟨"B", "parent", "A"⟩] dbEmpty dbS1
    (by decide) rfl ⟨"B", "parent", "A"⟩ (by decide)
    ⟨"parent", some parentProperty, "code", none⟩ rfl rfl
    ⟨"A", none⟩ (by decide) rfl (by decide)

/-- Counterexample to claim C4 as stated: in the batch B then A with the
relationship triple B, parent, A, the target concept A appears after the
concept B that references it, its code does not pre-exist in the store,
and the import nevertheless links: the committed row carries target id 2,
the Coding row of A.  The concept pass completes before any property is
processed, so batch position is irrelevant. -/
theorem claim_C4_counterexample :
    importPending csEx (some [⟨"B", none⟩, ⟨"A", none⟩])
      (some [⟨"B", "parent", "A"⟩]) dbEmpty = .ok dbC4 ∧
    findCoding dbC4.codings csEx.id "A" = some ⟨2, 1, "A", none⟩ ∧
    (∃ r ∈ dbC4.codingProps, r.target = some 2) :=
  ⟨rfl, rfl, ⟨⟨1, 3, "A", some 2⟩, by decide, rfl⟩⟩

/-- Claim C4, amended: for a relationship entry whose value does not
pre-exist in the Coding table and whose triple does not conflict with a
pre-existing row, the committed row has a non-null target if and only if
the target concept appears anywhere in the batch — position in the batch
does not matter. -/
theorem claim_C4 (cs : CodeSystem) (concepts : List Concept)
    (props : List ImportedProperty) (db F : Database) (hinv : DbInv db)
    (hok : importPending cs (some concepts) (some props) db = .ok F)
    (p : ImportedProperty) (hp : p ∈ props) (pd : PropertyDef)
    (hres : resolvePure cs p.property = .ok pd) (hrel : pd.type = "code")
    (hpre : ∀ r ∈ db.codingProps, tripleMatches r (expRow cs F p) = false)
    (hnopre : containsCoding db.codings cs.id p.value = false) :
    expRow cs F p ∈ F.codingProps ∧
    ((expRow cs F p).target ≠ none ↔ ∃ c ∈ concepts, c.code = p.value) := by
  obtain ⟨hmem, huniq, hcod, hAinv⟩ :=
    import_rel_rows cs concepts props db F hinv hok p hp pd hres hrel hpre
  refine ⟨hmem, ?_, ?_⟩
  · intro hne
    have hne2 : tgtOf cs F p ≠ none := hne
    obtain ⟨rc, hrc⟩ := tgtOf_ne_none cs F p hne2
    have hcont : containsCoding F.codings cs.id p.value = true :=
      containsCoding_of_findCoding _ _ _ _ hrc
    rw [hcod] at hcont
    by_cases hB : (concepts.isEmpty : Bool) = true
    · rw [if_pos hB] at hcont
      rw [hnopre] at hcont
      exact Bool.noConfusion hcont
    · rw [if_neg hB] at hcont
      rcases containsCoding_applyConcepts_inv cs concepts db p.value hcont with hl | hr
      · rw [hnopre] at hl
        exact Bool.noConfusion hl
      · exact hr
  · rintro ⟨c, hc, hval⟩
    have hne : (concepts.isEmpty : Bool) = false := by
      cases concepts with
      | nil => cases hc
      | cons a t => rfl
    rw [hne] at hcod hAinv
    simp only [Bool.false_eq_true, if_false] at hcod hAinv
    have hcont : containsCoding (applyConcepts cs concepts db).codings cs.id p.value
        = true := by
      have h2 := containsCoding_applyConcepts_all cs concepts db c hc
      rw [hval] at h2
      exact h2
    rw [← hcod] at hcont
    obtain ⟨rc, hrc⟩ := findCoding_of_contains F.codings cs.id p.value hcont
    have hrcmem : rc ∈ (applyConcepts cs concepts db).codings := by
      rw [← hcod]
      exact findCoding_mem F.codings cs.id p.value rc hrc
    have hid : 1 ≤ rc.id := DbInv_coding_id hAinv hrcmem
    have htg : tgtOf cs F p = some rc.id := tgtOf_some cs F p rc hrc hid
    show tgtOf cs F p ≠ none
    rw [htg]
    exact fun hx => Option.noConfusion hx

/-- Witness for claim C4: with the batch A then B and the triple B, parent,
A over the empty store, the committed row links because A is in the
batch. -/
theorem claim_C4_witness :
    expRow csEx dbS1 ⟨"B", "parent", "A"⟩ ∈ dbS1.codingProps ∧
    ((expRow csEx dbS1 ⟨"B", "parent", "A"⟩).target ≠ none ↔
      ∃ c ∈ [(⟨"A", none⟩ : Concept), ⟨"B", none⟩], c.code = "A") :=
  claim_C4 csEx [⟨"A", none⟩, ⟨"B", none⟩] [⟨"B", "parent", "A"⟩] dbEmpty dbS1
    (by decide) rfl ⟨"B", "parent", "A"⟩ (by decide)
    ⟨"parent", some parentProperty, "code", none⟩ rfl rfl (by decide) rfl

/-- Claim C5: implicit parent semantics of the resolver.  For a store and
two CodeSystems that do not declare the requested codes and hold no
matching CodeSystem_Property row: with hierarchyMeaning unset, code parent
resolves and inserts a row with the parent uri and type code, flagged as a
relationship; with hierarchyMeaning isa, code isa behaves the same way and
code parent fails with the UnknownProperty diagnostic. -/
theorem claim_C5 (cs1 cs2 : CodeSystem) (d : Database)
    (h1 : cs1.hierarchyMeaning = none)
    (h2 : ∀ q ∈ cs1.property.getD [], q.code ≠ "parent")
    (h3 : findCsProp d.csProps cs1.id "parent" = none)
    (h4 : cs2.hierarchyMeaning = some "isa")
    (h5 : ∀ q ∈ cs2.property.getD [], q.code ≠ "isa")
    (h6 : findCsProp d.csProps cs2.id "isa" = none)
    (h7 : ∀ q ∈ cs2.property.getD [], q.code ≠ "parent") :
    resolveProperty cs1 "parent" d = .ok (d.nextId, true,
      { d with
        csProps := d.csProps ++
          [⟨d.nextId, cs1.id, "parent", "code", some parentProperty, none⟩],
        nextId := d.nextId + 1 }) ∧
    resolveProperty cs2 "isa" d = .ok (d.nextId, true,
      { d with
        csProps := d.csProps ++
          [⟨d.nextId, cs2.id, "isa", "code", some parentProperty, none⟩],
        nextId := d.nextId + 1 }) ∧
    resolveProperty cs2 "parent" d = .error ("Unknown property: parent") := by
  have hf1 : (cs1.property.getD []).find? (fun q => q.code == "parent") = none := by
    rw [List.find?_eq_none]
    intro q hq
    simp [h2 q hq]
  have hf2 : (cs2.property.getD []).find? (fun q => q.code == "isa") = none := by
    rw [List.find?_eq_none]
    intro q hq
    simp [h5 q hq]
  have hf3 : (cs2.property.getD []).find? (fun q => q.code == "parent") = none := by
    rw [List.find?_eq_none]
    intro q hq
    simp [h7 q hq]
  have hp1 : resolvePure cs1 "parent" =
      .ok ⟨"parent", some parentProperty, "code", none⟩ := by
    unfold resolvePure
    rw [hf1, h1]
    rfl
  have hp2 : resolvePure cs2 "isa" =
      .ok ⟨"isa", some parentProperty, "code", none⟩ := by
    unfold resolvePure
    rw [hf2, h4]
    rfl
  have hp3 : resolvePure cs2 "parent" = .error ("Unknown property: parent") := by
    unfold resolvePure
    rw [hf3, h4]
    rfl
  refine ⟨?_, ?_, ?_⟩
  · exact resolveProperty_insert cs1 "parent" d
      ⟨"parent", some parentProperty, "code", none⟩ hp1 h3
  · exact resolveProperty_insert cs2 "isa" d
      ⟨"isa", some parentProperty, "code", none⟩ hp2 h6
  · unfold resolveProperty
    rw [hp3]

/-- Witness for claim C5 over the empty store with the fixture systems. -/
theorem claim_C5_witness :
    resolveProperty csEx "parent" dbEmpty = .ok (1, true,
      ⟨[], [⟨1, 1, "parent", "code", some parentProperty, none⟩], [], 2⟩) ∧
    resolveProperty csIsa "isa" dbEmpty = .ok (1, true,
      ⟨[], [⟨1, 2, "isa", "code", some parentProperty, none⟩], [], 2⟩) ∧
    resolveProperty csIsa "parent" dbEmpty = .error ("Unknown property: parent") :=
  claim_C5 csEx csIsa dbEmpty rfl (by decide) rfl rfl (by decide) rfl (by decide)

/-- Claim C6: unique property definitions.  Two sequential successful
imports into the same CodeSystem whose property batches both name the
property code p leave exactly one CodeSystem_Property row for that pair
when none existed before the first call. -/
theorem claim_C6 (cs : CodeSystem) (B1 B2 : Option (List Concept))
    (P1 P2 : List ImportedProperty) (db d1 d2 : Database) (pcode : String)
    (h0 : countP db.csProps cs.id pcode = 0)
    (h1 : importPending cs B1 (some P1) db = .ok d1)
    (e1 : ∃ q ∈ P1, q.property = pcode)
    (h2 : importPending cs B2 (some P2) d1 = .ok d2)
    (e2 : ∃ q ∈ P2, q.property = pcode) :
    countP d2.csProps cs.id pcode = 1 := by
  obtain ⟨q1, hq1, hq1p⟩ := e1
  obtain ⟨q2, hq2, hq2p⟩ := e2
  have hP1 : P1 ≠ [] := fun hnil => by rw [hnil] at hq1; cases hq1
  have hP2 : P2 ≠ [] := fun hnil => by rw [hnil] at hq2; cases hq2
  have haux1 := importPending_props cs B1 P1 db d1 hP1 h1
  have haux2 := importPending_props cs B2 P2 d1 d2 hP2 h2
  have hA1 : countP (if ((B1.getD []).isEmpty : Bool) = true then db
      else applyConcepts cs (B1.getD []) db).csProps cs.id pcode = 0 := by
    split
    · exact h0
    · rw [applyConcepts_csProps]
      exact h0
  obtain ⟨hle1, hmono1⟩ := countP_processPropertiesAux cs P1 _ [] d1 haux1
    cs.id pcode (by rw [hA1]; omega)
  obtain ⟨r1, hr1⟩ := aux_find cs P1 _ [] d1 (cacheConsistent_nil cs _) haux1 q1 hq1
  rw [hq1p] at hr1
  have hge1 : 1 ≤ countP d1.csProps cs.id pcode :=
    countP_pos_of_find d1.csProps cs.id pcode r1 hr1
  have hd1c : countP d1.csProps cs.id pcode = 1 := by omega
  have hA2 : countP (if ((B2.getD []).isEmpty : Bool) = true then d1
      else applyConcepts cs (B2.getD []) d1).csProps cs.id pcode = 1 := by
    split
    · exact hd1c
    · rw [applyConcepts_csProps]
      exact hd1c
  obtain ⟨hle2, hmono2⟩ := countP_processPropertiesAux cs P2 _ [] d2 haux2
    cs.id pcode (by rw [hA2])
  rw [hA2] at hmono2
  omega

/-- Witness for claim C6: importing the triple A, parent, X twice from the
empty store leaves a single parent definition row. -/
theorem claim_C6_witness : countP dbFix1.csProps csEx.id "parent" = 1 :=
  claim_C6 csEx (some [⟨"A", none⟩]) (some [⟨"A", none⟩])
    [⟨"A", "parent", "X"⟩] [⟨"A", "parent", "X"⟩] dbEmpty dbFix1 dbFix1 "parent"
    rfl rfl ⟨⟨"A", "parent", "X"⟩, by decide, rfl⟩
    rfl ⟨⟨"A", "parent", "X"⟩, by decide, rfl⟩

/-- Claim C7: unknown code handling of the property writer.  When no
Coding row matches the system and code of the entry, the step fails with
the diagnostic built from the system url and the code; when a matching row
with a nonzero id exists, that id is the owning coding id and the only
error the step can report is the UnknownProperty diagnostic, never
UnknownCode. -/
theorem claim_C7 (cs : CodeSystem) (d : Database) (c : Cache)
    (p : ImportedProperty) :
    (findCoding d.codings cs.id p.code = none →
      processProperty cs d c p =
        .error ("Unknown code: " ++ cs.url ++ "|" ++ p.code)) ∧
    (∀ rc, findCoding d.codings cs.id p.code = some rc → 1 ≤ rc.id →
      cidOf cs d p = rc.id ∧
      ∀ e, processProperty cs d c p = .error e →
        e = "Unknown property: " ++ p.property) := by
  constructor
  · intro hf
    apply processProperty_eq_err
    unfold lookupCodingId
    rw [hf]
    rfl
  · intro rc hf hid
    have hcid : cidOf cs d p = rc.id := by
      unfold cidOf lookupCodingId
      rw [hf]
      rfl
    refine ⟨hcid, ?_⟩
    intro e he
    have hg : (lookupCodingId d.codings cs.id p.code).getD 0 = rc.id := hcid
    have hz : ((lookupCodingId d.codings cs.id p.code).getD 0 == 0) = false := by
      rw [hg]
      simp only [beq_eq_false_iff_ne, ne_eq]
      omega
    simp only [processProperty] at he
    rw [hz] at he
    simp only [Bool.false_eq_true, if_false] at he
    cases hrc : resolveCached cs d c p.property with
    | error e2 =>
      rw [hrc] at he
      simp at he
      rw [← he]
      exact resolveCached_error cs d c p.property e2 hrc
    | ok t =>
      obtain ⟨propId, isRel, dr, c1⟩ := t
      rw [hrc] at he
      simp at he

/-- Witness for claim C7: the entry X, parent, v fails with the unknown
code diagnostic over the fixture store, while the entry A, nope, v finds
the owning coding id 1 and fails only with the unknown property
diagnostic. -/
theorem claim_C7_witness :
    processProperty csEx dbFix1 [] ⟨"X", "parent", "v"⟩ =
      .error ("Unknown code: " ++ csEx.url ++ "|" ++ "X") ∧
    cidOf csEx dbFix1 ⟨"A", "nope", "v"⟩ = 1 ∧
    ("Unknown property: nope" : String) = "Unknown property: " ++ "nope" := by
  refine ⟨(claim_C7 csEx dbFix1 [] ⟨"X", "parent", "v"⟩).1 rfl, ?_, ?_⟩
  · exact ((claim_C7 csEx dbFix1 [] ⟨"A", "nope", "v"⟩).2 ⟨1, 1, "A", none⟩
      rfl (by decide)).1
  · exact ((claim_C7 csEx dbFix1 [] ⟨"A", "nope", "v"⟩).2 ⟨1, 1, "A", none⟩
      rfl (by decide)).2 "Unknown property: nope" rfl

/-- Counterexample to claim C8 as stated: two batches that are permutations
of one another but repeat the code A with different displays produce
different Coding tables, because the upsert makes the last display win, so
order does affect the final state. -/
theorem claim_C8_counterexample :
    applyConcepts csEx [⟨"A", some "x"⟩, ⟨"A", some "y"⟩] dbEmpty = dbAxy ∧
    applyConcepts csEx [⟨"A", some "y"⟩, ⟨"A", some "x"⟩] dbEmpty = dbAyx ∧
    List.Perm [(⟨"A", some "x"⟩ : Concept), ⟨"A", some "y"⟩]
      [⟨"A", some "y"⟩, ⟨"A", some "x"⟩] ∧
    dbAxy ≠ dbAyx :=
  ⟨by decide, by decide, List.Perm.swap (⟨"A", some "y"⟩ : Concept) ⟨"A", some "x"⟩ [],
    by decide⟩

/-- Claim C8, amended: when the batch codes are pairwise distinct, the
concept writer is order-independent up to row ids and row order: for every
permutation of the batch and every code, the Coding table assigns the same
display, and a row exists for the same set of codes. -/
theorem claim_C8 (cs : CodeSystem) (B1 B2 : List Concept) (d : Database)
    (x : String) (hperm : B1.Perm B2)
    (hnodup : (B1.map (fun c => c.code)).Nodup) :
    conceptView (applyConcepts cs B1 d) cs.id x =
      conceptView (applyConcepts cs B2 d) cs.id x := by
  rw [conceptView_applyConcepts, conceptView_applyConcepts,
    lastConcept_perm B1 B2 x hperm hnodup]

/-- Witness for claim C8: the batches A then B and B then A assign the
same display to the code A over the empty store. -/
theorem claim_C8_witness :
    conceptView (applyConcepts csEx [⟨"A", none⟩, ⟨"B", none⟩] dbEmpty) csEx.id "A" =
      conceptView (applyConcepts csEx [⟨"B", none⟩, ⟨"A", none⟩] dbEmpty) csEx.id "A" :=
  claim_C8 csEx [⟨"A", none⟩, ⟨"B", none⟩] [⟨"B", none⟩, ⟨"A", none⟩] dbEmpty "A"
    (by decide) (by decide)

/-- Claim C9: the resolution cache is a plain map without prototype
pollution.  For every key string, including crafted codes, insertion makes
the key readable, leaves every other key untouched, and never raises; and
a code that resolves purely is resolved by the cached resolver from any
cache state without error. -/
theorem claim_C9 (c : Cache) (k k2 : String) (e : CacheEntry) (cs : CodeSystem)
    (d : Database) (code : String) (pd : PropertyDef)
    (hk : k2 ≠ k) (hpure : resolvePure cs code = .ok pd) :
    cacheLookup (cacheInsert c k e) k = some e ∧
    cacheLookup (cacheInsert c k e) k2 = cacheLookup c k2 ∧
    ∃ i r d1 c1, resolveCached cs d c code = .ok (i, r, d1, c1) := by
  refine ⟨?_, ?_, ?_⟩
  · rw [cacheLookup_cacheInsert]
    simp
  · rw [cacheLookup_cacheInsert]
    have hke : (k2 == k) = false := by simp [hk]
    rw [hke]
    simp
  · cases hl : cacheLookup c (cs.url ++ "|" ++ code) with
    | some e2 =>
      cases hz : (e2.id == 0) with
      | false =>
        exact ⟨e2.id, e2.isRelationship, d, c, resolveCached_hit cs d c code e2 hl hz⟩
      | true =>
        rw [resolveCached_miss_zero cs d c code e2 hl hz]
        cases hf : findCsProp d.csProps cs.id code with
        | some row =>
          exact ⟨row.id, pd.type == "code", d, _,
            resolveMiss_eq cs d c code _ row.id (pd.type == "code") d
              (resolveProperty_found cs code d pd row hpure hf)⟩
        | none =>
          exact ⟨d.nextId, pd.type == "code", _, _,
            resolveMiss_eq cs d c code _ d.nextId (pd.type == "code") _
              (resolveProperty_insert cs code d pd hpure hf)⟩
    | none =>
      rw [resolveCached_miss_none cs d c code hl]
      cases hf : findCsProp d.csProps cs.id code with
      | some row =>
        exact ⟨row.id, pd.type == "code", d, _,
          resolveMiss_eq cs d c code _ row.id (pd.type == "code") d
            (resolveProperty_found cs code d pd row hpure hf)⟩
      | none =>
        exact ⟨d.nextId, pd.type == "code", _, _,
          resolveMiss_eq cs d c code _ d.nextId (pd.type == "code") _
            (resolveProperty_insert cs code d pd hpure hf)⟩

/-- Witness for claim C9 with the crafted proto-dunder code declared by the
fixture system: the crafted key reads back, another key is untouched, and
the code resolves without error. -/
theorem claim_C9_witness :
    cacheLookup (cacheInsert [] "http://ex/cs3|__proto__" ⟨1, false⟩)
      "http://ex/cs3|__proto__" = some ⟨1, false⟩ ∧
    cacheLookup (cacheInsert [] "http://ex/cs3|__proto__" ⟨1, false⟩)
      "http://ex/cs3|other" = cacheLookup [] "http://ex/cs3|other" ∧
    ∃ i r d1 c1, resolveCached csProto dbEmpty [] "__proto__" = .ok (i, r, d1, c1) :=
  claim_C9 [] "http://ex/cs3|__proto__" "http://ex/cs3|other" ⟨1, false⟩
    csProto dbEmpty "__proto__" ⟨"__proto__", none, "string", none⟩
    (by decide) rfl

/-- Claim C10: an import with no concepts and no properties, absent or
empty lists alike, succeeds without a diagnostic, commits, and leaves the
whole store exactly as it was. -/
theorem claim_C10 (cs : CodeSystem) (co : Option (List Concept))
    (pr : Option (List ImportedProperty)) (s : Session)
    (hco : co.getD [] = []) (hpr : pr.getD [] = []) :
    importCodeSystem cs co pr s = (⟨s.committed, s.committed⟩, none) := by
  have hok : importPending cs co pr s.committed = .ok s.committed := by
    unfold importPending
    rw [hco, hpr]
    rfl
  rw [importCodeSystem_ok cs co pr s s.committed hok]

/-- Witness for claim C10: the empty import over the empty session with an
absent concept list and a present but empty property list. -/
theorem claim_C10_witness :
    importCodeSystem csEx none (some []) sessionEmpty =
      (⟨sessionEmpty.committed, sessionEmpty.committed⟩, none) :=
  claim_C10 csEx none (some []) sessionEmpty rfl rfl

end CSImport
